import Mathlib

/-!
Verification of the gesture-particle-3d repository.

The repository renders a 3D particle cloud that morphs between procedurally
generated shapes and reacts to a hand-tracking signal.  This file gives a
shallow embedding of its core arithmetic:

* purely rational computations of the source (the pinch-distance mapping of
  `onHandResults`, the no-hand decay, the heart rejection-sampling generator,
  the cube face generator) are embedded as computable functions over `ℚ`
  (exact arithmetic standing for JavaScript's binary floating point);
* computations that use `Math.sqrt` / trigonometry (the particle update step
  `updateParticles`, the golden-spiral sphere generator, and the other shape
  generators) are embedded over `ℝ`;
* `Math.random()` is modelled by an explicit stream `rnd : ℕ → ℚ` (or `ℕ → ℝ`)
  of draws, consumed at explicitly threaded positions exactly where the source
  calls `Math.random()`.

Sources: `src/script.js` (the 5000-particle sphere/cube variant, suffix `Js`
below) and `src/unnamed/part_000` / `src/unnamed/part_003` (the 4000-particle
six-shape variant, unsuffixed names below; their `updateParticles`,
`onHandResults` and `generateHeartPositions` are identical).
-/

/-- A 3D point with coordinates in `α`: one `(x, y, z)` triple of the flat
`Float32Array` buffers (`currentPositions`, `targetPositions`) of the source. -/
@[ext]
structure Vec3 (α : Type) where
  x : α
  y : α
  z : α
deriving DecidableEq

/-- Constant `PINCH_MIN_DISTANCE = 0.03` (part_000 line 12). -/
def PINCH_MIN_DISTANCE : ℚ := 3 / 100

/-- Constant `PINCH_MAX_DISTANCE = 0.2` (part_000 line 13). -/
def PINCH_MAX_DISTANCE : ℚ := 1 / 5

/-- Constant `INTERACTION_DECAY_RATE = 0.02` (part_000 line 14). -/
def INTERACTION_DECAY_RATE : ℚ := 1 / 50

/-- Gesture mapping of part_000 line 443: with a hand present and thumb/index
distance `distance`, `interactionFactor = Math.min(1, Math.max(0,
(distance - PINCH_MIN_DISTANCE) / (PINCH_MAX_DISTANCE - PINCH_MIN_DISTANCE)))`. -/
def interactionFactorOfDistance (distance : ℚ) : ℚ :=
  min 1 (max 0 ((distance - PINCH_MIN_DISTANCE) / (PINCH_MAX_DISTANCE - PINCH_MIN_DISTANCE)))

/-- Function `mapRange` of script.js lines 339-342: clamp `value` to
`[inMin, inMax]`, then map linearly onto `[outMin, outMax]`. -/
def mapRange (value inMin inMax outMin outMax : ℚ) : ℚ :=
  let clamped := max inMin (min inMax value)
  outMin + (clamped - inMin) * (outMax - outMin) / (inMax - inMin)

/-- Normalized pinch distance of script.js lines 308-314: `mapRange(distance,
CONFIG.pinchThreshold.min, CONFIG.pinchThreshold.max, 0, 1)` with the
thresholds `0.03` and `0.25` of script.js line 19. -/
def normalizedPinchDistance (distance : ℚ) : ℚ :=
  mapRange distance (3 / 100) (1 / 4) 0 1

/-- No-hand decay of part_000 line 461: `interactionFactor = Math.max(0,
interactionFactor - INTERACTION_DECAY_RATE)`, one detector callback with no
hand present (baseline 0). -/
def decayInteraction (v : ℚ) : ℚ :=
  max 0 (v - INTERACTION_DECAY_RATE)

/-- No-hand decay of script.js line 328: `dispersionFactor += (1.0 -
dispersionFactor) * CONFIG.dispersionReturnSpeed` with
`dispersionReturnSpeed = 0.02` (baseline 1). -/
def decayDispersionJs (v : ℚ) : ℚ :=
  v + (1 - v) * (1 / 50)

/-- Heart implicit-surface value of part_000 lines 190-197: for a sampled
point `(x, y, z)` the quantity `(x² + 9/4·y² + z² - 1)³ - x²·z³ - 9/80·y²·z³`;
the point is accepted exactly when this is negative. -/
def heartValue {α : Type} [LinearOrderedField α] (x y z : α) : α :=
  let x2 := x * x
  let y2 := y * y
  let z2 := z * z
  let term1 := x2 + (9 / 4) * y2 + z2 - 1
  let term1Cubed := term1 * term1 * term1
  let z3 := z2 * z
  term1Cubed - x2 * z3 - (9 / 80) * y2 * z3

/-- Rejection-sampling loop of part_000 lines 181-206 (`while index <
PARTICLE_COUNT && iterations < maxIterations`).  `fuel` is the number of
iterations still allowed (initially `count * 100`), `j` the position in the
random stream (each iteration draws `x`, `z`, `y` at `j`, `j+1`, `j+2`), and
`acc` the points written so far (`index` is `acc.length`).  An accepted sample
is stored scaled by `scale = 1.5` with `z` mapped to Y (up) and `y` mapped to
Z (depth).  Returns the written points and the final stream position. -/
def heartRejectLoop {α : Type} [LinearOrderedField α] (rnd : ℕ → α) (count : ℕ) :
    ℕ → ℕ → List (Vec3 α) → List (Vec3 α) × ℕ
  | 0, j, acc => (acc, j)
  | fuel + 1, j, acc =>
    if acc.length < count then
      let scale : α := 3 / 2
      let x := rnd j * 3 - 3 / 2
      let z := rnd (j + 1) * 3 - 3 / 2
      let y := rnd (j + 2) * 3 - 1
      if heartValue x y z < 0 then
        heartRejectLoop rnd count fuel (j + 3)
          (acc ++ [⟨x * scale, z * scale, y * scale⟩])
      else
        heartRejectLoop rnd count fuel (j + 3) acc
    else (acc, j)

/-- Fallback fill of part_000 lines 209-217: once the iteration cap is
reached, the remaining `k` slots are filled with uniform random points inside
the heart bounds, without the acceptance test (three draws per point). -/
def heartFill {α : Type} [LinearOrderedField α] (rnd : ℕ → α) :
    ℕ → ℕ → List (Vec3 α)
  | _, 0 => []
  | j, k + 1 =>
    let scale : α := 3 / 2
    ⟨(rnd j - 1 / 2) * 2 * scale, rnd (j + 1) * 2 * scale,
      (rnd (j + 2) - 1 / 2) * 2 * scale⟩ :: heartFill rnd (j + 3) k

/-- Heart generator `generateHeartPositions` of part_000 lines 173-218 (the
same function appears in part_003 lines 179-224): rejection sampling with a
safety cap of `count * 100` iterations, then the fallback fill for any
remaining slots. -/
def generateHeartPositions {α : Type} [LinearOrderedField α]
    (rnd : ℕ → α) (count : ℕ) : List (Vec3 α) :=
  let r := heartRejectLoop rnd count (count * 100) 0 []
  r.1 ++ heartFill rnd r.2 (count - r.1.length)

/-- Face-indexed point placement of the `switch (face)` of script.js lines
147-178: face 0 = front (`z = halfSize`), 1 = back, 2 = top, 3 = bottom,
4 = right, 5 = left; `u` and `v` are the two random in-face coordinates. -/
def cubeFacePoint {α : Type} [Field α] (face : ℕ) (u v halfSize : α) : Vec3 α :=
  match face with
  | 0 => ⟨u, v, halfSize⟩
  | 1 => ⟨u, v, -halfSize⟩
  | 2 => ⟨u, halfSize, v⟩
  | 3 => ⟨u, -halfSize, v⟩
  | 4 => ⟨halfSize, u, v⟩
  | _ => ⟨-halfSize, u, v⟩

/-- Inner loop of script.js line 143 (`for j < particlesPerFace && index <
count`): writes points on face `face` while the global index (`acc.length`)
is below `count`; `fuel` is the number of remaining `j` iterations, `p` the
random-stream position (each point draws `u` at `p` and `v` at `p + 1`,
each `(Math.random() - 0.5) * size`).  Returns the array written so far and
the new stream position. -/
def cubeFaceLoopJs {α : Type} [Field α] (rnd : ℕ → α) (count : ℕ) (size : α)
    (face : ℕ) : ℕ → ℕ → List (Vec3 α) → List (Vec3 α) × ℕ
  | 0, p, acc => (acc, p)
  | j + 1, p, acc =>
    if acc.length < count then
      let u := (rnd p - 1 / 2) * size
      let v := (rnd (p + 1) - 1 / 2) * size
      cubeFaceLoopJs rnd count size face j (p + 2)
        (acc ++ [cubeFacePoint face u v (size / 2)])
    else (acc, p)

/-- Outer loop of script.js line 142 (`for face < 6 && index < count`), each
face running the inner loop for `particlesPerFace = Math.floor(count / 6)`
iterations and threading the random-stream position. -/
def cubeFacesLoopJs {α : Type} [Field α] (rnd : ℕ → α) (count : ℕ) (size : α) :
    ℕ → ℕ → ℕ → List (Vec3 α) → List (Vec3 α)
  | 0, _, _, acc => acc
  | f + 1, face, p, acc =>
    if acc.length < count then
      let r := cubeFaceLoopJs rnd count size face (count / 6) p acc
      cubeFacesLoopJs rnd count size f (face + 1) r.2 r.1
    else acc

/-- Cube generator `generateCubePositions` of script.js lines 134-184.  The
`Float32Array` of `count` points is zero-initialized and the face loops write
it sequentially from index 0, so the generator's result is the written prefix
followed by `(0, 0, 0)` entries for every slot the loops never reach. -/
def generateCubePositionsJs {α : Type} [Field α] (rnd : ℕ → α) (count : ℕ)
    (size : α) : List (Vec3 α) :=
  let written := cubeFacesLoopJs rnd count size 6 0 0 []
  written ++ List.replicate (count - written.length) ⟨0, 0, 0⟩

/-- Squared Euclidean distance between two 3D points. -/
noncomputable def distSq (a b : Vec3 ℝ) : ℝ :=
  (a.x - b.x) ^ 2 + (a.y - b.y) ^ 2 + (a.z - b.z) ^ 2

/-- Euclidean distance between two 3D points. -/
noncomputable def euclidDist (a b : Vec3 ℝ) : ℝ :=
  Real.sqrt (distSq a b)

/-- Exponential-smoothing move of part_000 lines 554-556 for one particle:
`current += (destination - current) * ANIMATION_SMOOTHING_FACTOR`, here with a
general smoothing factor `s`, destination `t` and current position `c`. -/
noncomputable def lerpPoint (s : ℝ) (t c : Vec3 ℝ) : Vec3 ℝ :=
  ⟨c.x + (t.x - c.x) * s, c.y + (t.y - c.y) * s, c.z + (t.z - c.z) * s⟩

open Classical in
/-- Main loop of `updateParticles`, part_000 lines 528-557 (identical in
part_003 lines 519-548).  `ts` are the target points, `cs` the current
positions, `p` the random-stream position.  For each particle: if `dispersion
> 0.1` and the target's length `Math.sqrt(x²+y²+z²)` is positive, the
destination is displaced radially by `dispersion` plus one shared random
offset `(Math.random() - 0.5) * rOff` added to all three axes (one draw per
such particle, so `p` advances only on that branch); otherwise the
destination is the target itself (the source skips the whole block when
`dispersion ≤ 0.1`, and skips the displacement when the length is 0).  The
new position then moves toward the destination by the smoothing fraction. -/
noncomputable def updateParticlesGo (rnd : ℕ → ℝ) (smoothing dispersion rOff : ℝ) :
    List (Vec3 ℝ) → List (Vec3 ℝ) → ℕ → List (Vec3 ℝ)
  | t :: ts, c :: cs, p =>
    if 0.1 < dispersion ∧ 0 < Real.sqrt (t.x * t.x + t.y * t.y + t.z * t.z) then
      let len := Real.sqrt (t.x * t.x + t.y * t.y + t.z * t.z)
      let randomOffset := (rnd p - 1 / 2) * rOff
      let tx := t.x + t.x / len * dispersion + randomOffset
      let ty := t.y + t.y / len * dispersion + randomOffset
      let tz := t.z + t.z / len * dispersion + randomOffset
      ⟨c.x + (tx - c.x) * smoothing, c.y + (ty - c.y) * smoothing,
          c.z + (tz - c.z) * smoothing⟩
        :: updateParticlesGo rnd smoothing dispersion rOff ts cs (p + 1)
    else
      ⟨c.x + (t.x - c.x) * smoothing, c.y + (t.y - c.y) * smoothing,
          c.z + (t.z - c.z) * smoothing⟩
        :: updateParticlesGo rnd smoothing dispersion rOff ts cs p
  | _, _, _ => []

/-- One call of `updateParticles` (part_000 lines 524-561): the dispersion
magnitude is `interactionFactor * params.dispersionStrength` (line 526), the
smoothing fraction is `ANIMATION_SMOOTHING_FACTOR = 0.05` and the scatter
scale `RANDOM_OFFSET_STRENGTH = 0.5` in the source; all are parameters here. -/
noncomputable def updateParticles (rnd : ℕ → ℝ)
    (smoothing interactionFactor dispersionStrength rOff : ℝ)
    (targets cur : List (Vec3 ℝ)) : List (Vec3 ℝ) :=
  updateParticlesGo rnd smoothing (interactionFactor * dispersionStrength) rOff
    targets cur 0

/-- Golden-spiral sphere point of part_000 lines 110-116: for index `i` of
`count`, `phi = acos(1 - 2(i + 0.5)/count)`, `theta = π(1 + √5)(i + 0.5)`,
radius 2. -/
noncomputable def spherePoint (count i : ℕ) : Vec3 ℝ :=
  let radius : ℝ := 2
  let phi := Real.arccos (1 - 2 * ((i : ℝ) + 1 / 2) / (count : ℝ))
  let theta := Real.pi * (1 + Real.sqrt 5) * ((i : ℝ) + 1 / 2)
  ⟨radius * Real.sin phi * Real.cos theta,
    radius * Real.sin phi * Real.sin theta,
    radius * Real.cos phi⟩

/-- Sphere generator `generateSpherePositions` of part_000 lines 107-122: one
golden-spiral point per index `i < count`. -/
noncomputable def generateSpherePositions (count : ℕ) : List (Vec3 ℝ) :=
  (List.range count).map (spherePoint count)

/-- Coordinatewise bound: every coordinate of `v` is finite with magnitude at
most `M` (the rendering of "no NaN/Infinity" in the exact-real model: a
coordinate produced by the embedded arithmetic is a real number with an
explicit finite bound). -/
def coordBound (v : Vec3 ℝ) (M : ℝ) : Prop :=
  |v.x| ≤ M ∧ |v.y| ≤ M ∧ |v.z| ≤ M

/-- Face-indexed point placement of part_000 lines 132-162: the `faces` array
lists them in order +X, -X, +Y, -Y, +Z, -Z, with `u` and `v` the two random
in-face coordinates. -/
def cubeFacePoint000 {α : Type} [Field α] (f : ℕ) (u v halfSize : α) : Vec3 α :=
  match f with
  | 0 => ⟨halfSize, u, v⟩
  | 1 => ⟨-halfSize, u, v⟩
  | 2 => ⟨u, halfSize, v⟩
  | 3 => ⟨u, -halfSize, v⟩
  | 4 => ⟨u, v, halfSize⟩
  | _ => ⟨u, v, -halfSize⟩

/-- Inner per-face loop of part_000 lines 145-168 (`for i < count && index <
PARTICLE_COUNT`): like the script.js inner loop, but the per-face count is
passed in as `fuel` since the last face receives the remainder. -/
def cubeFaceFill000 {α : Type} [Field α] (rnd : ℕ → α) (count : ℕ) (size : α)
    (f : ℕ) : ℕ → ℕ → List (Vec3 α) → List (Vec3 α) × ℕ
  | 0, p, acc => (acc, p)
  | i + 1, p, acc =>
    if acc.length < count then
      let u := (rnd p - 1 / 2) * size
      let v := (rnd (p + 1) - 1 / 2) * size
      cubeFaceFill000 rnd count size f i (p + 2)
        (acc ++ [cubeFacePoint000 f u v (size / 2)])
    else (acc, p)

/-- Outer face loop of part_000 lines 141-169: faces 0 to 5, each allotted
`⌊count / 6⌋` points except face 5, which receives all remaining slots
(`PARTICLE_COUNT - index`). -/
def cubeFaces000 {α : Type} [Field α] (rnd : ℕ → α) (count : ℕ) (size : α) :
    ℕ → ℕ → ℕ → List (Vec3 α) → List (Vec3 α)
  | 0, _, _, acc => acc
  | fRem + 1, f, p, acc =>
    let cnt := if f = 5 then count - acc.length else count / 6
    let r := cubeFaceFill000 rnd count size f cnt p acc
    cubeFaces000 rnd count size fRem (f + 1) r.2 r.1

/-- Cube generator `generateCubePositions` of part_000 lines 125-170
(`size = 2`); it always writes all `count` entries. -/
def generateCubePositions {α : Type} [Field α] (rnd : ℕ → α) (count : ℕ) :
    List (Vec3 α) :=
  cubeFaces000 rnd count 2 6 0 0 []

open Classical in
/-- One fireworks particle of part_000 lines 248-270: golden-spiral direction
at index `i` of the layer's `cnt`, radius jittered by the draw `rndRadius`,
and pulled toward the center when the draw `trail < 0.3` (the trail effect). -/
noncomputable def fireworksPoint (rndRadius trail radius : ℝ) (cnt i : ℕ) : Vec3 ℝ :=
  let phi := Real.arccos (1 - 2 * ((i : ℝ) + 1 / 2) / (cnt : ℝ))
  let theta := Real.pi * (1 + Real.sqrt 5) * ((i : ℝ) + 1 / 2)
  let randomRadius := radius * (4 / 5 + rndRadius * (2 / 5))
  let x := randomRadius * Real.sin phi * Real.cos theta
  let y := randomRadius * Real.sin phi * Real.sin theta
  let z := randomRadius * Real.cos phi
  if trail < 3 / 10 then
    ⟨x * (3 / 10 + trail), y * (3 / 10 + trail), z * (3 / 10 + trail)⟩
  else ⟨x, y, z⟩

/-- Inner per-layer loop of part_000 lines 247-272 (two draws per particle:
the radius jitter at `p`, the trail factor at `p + 1`). -/
noncomputable def fireworksLayerFill (rnd : ℕ → ℝ) (count : ℕ) (radius : ℝ)
    (cnt : ℕ) : ℕ → ℕ → ℕ → List (Vec3 ℝ) → List (Vec3 ℝ) × ℕ
  | 0, _, p, acc => (acc, p)
  | fuel + 1, i, p, acc =>
    if acc.length < count then
      fireworksLayerFill rnd count radius cnt fuel (i + 1) (p + 2)
        (acc ++ [fireworksPoint (rnd p) (rnd (p + 1)) radius cnt i])
    else (acc, p)

/-- Layer loop of part_000 lines 243-273: 5 layers of radius `0.5 + 0.4·layer`,
each allotted `⌊count / 5⌋` particles except the last, which receives the
remainder. -/
noncomputable def fireworksLayers (rnd : ℕ → ℝ) (count : ℕ) :
    ℕ → ℕ → ℕ → List (Vec3 ℝ) → List (Vec3 ℝ)
  | 0, _, _, acc => acc
  | lRem + 1, layer, p, acc =>
    let radius : ℝ := 1 / 2 + (layer : ℝ) * (2 / 5)
    let cnt := if layer = 4 then count - acc.length else count / 5
    let r := fireworksLayerFill rnd count radius cnt cnt 0 p acc
    fireworksLayers rnd count lRem (layer + 1) r.2 r.1

/-- Fireworks generator `generateFireworksPositions` of part_000 lines
238-274. -/
noncomputable def generateFireworksPositions (rnd : ℕ → ℝ) (count : ℕ) :
    List (Vec3 ℝ) :=
  fireworksLayers rnd count 5 0 0 []

/-- Inner tree-body layer loop of part_000 lines 294-303 (three draws per
point: angle, radius, height variation; the guard is `index <
treeParticles`). -/
noncomputable def treeBodyLayerFill (rnd : ℕ → ℝ) (treeP : ℕ)
    (layerY layerRadius : ℝ) : ℕ → ℕ → List (Vec3 ℝ) → List (Vec3 ℝ) × ℕ
  | 0, p, acc => (acc, p)
  | fuel + 1, p, acc =>
    if acc.length < treeP then
      let angle := rnd p * (2 * Real.pi)
      let r := rnd (p + 1) * layerRadius
      let heightVariation := (rnd (p + 2) - 1 / 2) * (3 / 10)
      treeBodyLayerFill rnd treeP layerY layerRadius fuel (p + 3)
        (acc ++ [⟨r * Real.cos angle, layerY + heightVariation, r * Real.sin angle⟩])
    else (acc, p)

/-- Tree-body layer loop of part_000 lines 286-304: 6 cone layers of height
`-1.5 + (layer/6)·3·0.9` and radius `1.2·(1 - (layer/6)·0.9)`, the last layer
receiving the remaining body slots. -/
noncomputable def treeBodyLayers (rnd : ℕ → ℝ) (treeP : ℕ) :
    ℕ → ℕ → ℕ → List (Vec3 ℝ) → List (Vec3 ℝ) × ℕ
  | 0, _, p, acc => (acc, p)
  | lRem + 1, layer, p, acc =>
    let layerY : ℝ := -(3 : ℝ) / 2 + ((layer : ℝ) / 6) * 3 * (9 / 10)
    let layerRadius : ℝ := (6 / 5) * (1 - ((layer : ℝ) / 6) * (9 / 10))
    let cnt := if layer = 5 then treeP - acc.length else treeP / 6
    let r := treeBodyLayerFill rnd treeP layerY layerRadius cnt p acc
    treeBodyLayers rnd treeP lRem (layer + 1) r.2 r.1

/-- Trunk loop of part_000 lines 307-318: a thin cylinder below the cone
(radius 0.15, height 0.4), guarded by `index < PARTICLE_COUNT -
starParticles` (`cap`). -/
noncomputable def treeTrunkFill (rnd : ℕ → ℝ) (cap : ℕ) :
    ℕ → ℕ → List (Vec3 ℝ) → List (Vec3 ℝ) × ℕ
  | 0, p, acc => (acc, p)
  | fuel + 1, p, acc =>
    if acc.length < cap then
      let angle := rnd p * (2 * Real.pi)
      let r := rnd (p + 1) * (3 / 20)
      let y : ℝ := -(3 : ℝ) / 2 - rnd (p + 2) * (2 / 5)
      treeTrunkFill rnd cap fuel (p + 3)
        (acc ++ [⟨r * Real.cos angle, y, r * Real.sin angle⟩])
    else (acc, p)

/-- Star loop of part_000 lines 321-334: a 5-pointed-star cluster at the apex
(`starY = 1.5·0.9 + 0.2`), alternating inner/outer radius with `i % 2`, two
draws per point. -/
noncomputable def treeStarFill (rnd : ℕ → ℝ) (count starP : ℕ) :
    ℕ → ℕ → ℕ → List (Vec3 ℝ) → List (Vec3 ℝ)
  | 0, _, _, acc => acc
  | fuel + 1, i, p, acc =>
    if acc.length < count then
      let angle := ((i : ℝ) / (starP : ℝ)) * (2 * Real.pi)
      let r : ℝ := if i % 2 = 0 then 1 / 4 else (1 / 4) * (2 / 5)
      let randomR := r * (1 / 2 + rnd p * (1 / 2))
      let starY : ℝ := (3 : ℝ) / 2 * (9 / 10) + 1 / 5
      treeStarFill rnd count starP fuel (i + 1) (p + 2)
        (acc ++ [⟨randomR * Real.cos angle,
          starY + (rnd (p + 1) - 1 / 2) * (1 / 10), randomR * Real.sin angle⟩])
    else acc

/-- Christmas-tree generator `generateChristmasTreePositions` of part_000
lines 277-335: 5% star, 8% trunk (both floored), the rest cone body. -/
noncomputable def generateChristmasTreePositions (rnd : ℕ → ℝ) (count : ℕ) :
    List (Vec3 ℝ) :=
  let starParticles := count * 5 / 100
  let trunkParticles := count * 8 / 100
  let treeParticles := count - starParticles - trunkParticles
  let body := treeBodyLayers rnd treeParticles 6 0 0 []
  let trunk := treeTrunkFill rnd (count - starParticles) trunkParticles body.2 body.1
  treeStarFill rnd count starParticles starParticles 0 trunk.2 trunk.1

/-- Planet-body point of part_000 lines 347-360: golden-spiral sphere of
radius 1 over the planet's own sub-count, written as `(x, y, z)` directly. -/
noncomputable def planetSpherePoint (planetP i : ℕ) : Vec3 ℝ :=
  let planetRadius : ℝ := 1
  let phi := Real.arccos (1 - 2 * ((i : ℝ) + 1 / 2) / (planetP : ℝ))
  let theta := Real.pi * (1 + Real.sqrt 5) * ((i : ℝ) + 1 / 2)
  ⟨planetRadius * Real.sin phi * Real.cos theta,
    planetRadius * Real.sin phi * Real.sin theta, planetRadius * Real.cos phi⟩

/-- Ring loop of part_000 lines 363-381: random angle and radius in
`[1.4, 2.2]` in the XZ plane, then tilted about X by `π/6` (two draws per
point). -/
noncomputable def planetRingFill (rnd : ℕ → ℝ) (count : ℕ) :
    ℕ → ℕ → List (Vec3 ℝ) → List (Vec3 ℝ)
  | 0, _, acc => acc
  | fuel + 1, p, acc =>
    if acc.length < count then
      let ringTilt := Real.pi / 6
      let angle := rnd p * (2 * Real.pi)
      let r : ℝ := 7 / 5 + rnd (p + 1) * (11 / 5 - 7 / 5)
      let x := r * Real.cos angle
      let z := r * Real.sin angle
      let y : ℝ := 0
      let tiltedY := y * Real.cos ringTilt - z * Real.sin ringTilt
      let tiltedZ := y * Real.sin ringTilt + z * Real.cos ringTilt
      planetRingFill rnd count fuel (p + 2) (acc ++ [⟨x, tiltedY, tiltedZ⟩])
    else acc

/-- Planet generator `generatePlanetPositions` of part_000 lines 338-382: 60%
(floored) sphere body, the remainder a tilted ring. -/
noncomputable def generatePlanetPositions (rnd : ℕ → ℝ) (count : ℕ) :
    List (Vec3 ℝ) :=
  let planetParticles := count * 6 / 10
  let body := (List.range planetParticles).map (planetSpherePoint planetParticles)
  planetRingFill rnd count (count - planetParticles) 0 body

/-- Golden-spiral sphere point of script.js lines 121-128: radius 150 by
default, `theta = π(1 + √5)·i` (no half-offset in this variant). -/
noncomputable def spherePointJs (count : ℕ) (radius : ℝ) (i : ℕ) : Vec3 ℝ :=
  let phi := Real.arccos (1 - 2 * ((i : ℝ) + 1 / 2) / (count : ℝ))
  let theta := Real.pi * (1 + Real.sqrt 5) * (i : ℝ)
  ⟨radius * Real.sin phi * Real.cos theta,
    radius * Real.sin phi * Real.sin theta, radius * Real.cos phi⟩

/-- Sphere generator `generateSpherePositions` of script.js lines 118-132. -/
noncomputable def generateSpherePositionsJs (count : ℕ) (radius : ℝ) :
    List (Vec3 ℝ) :=
  (List.range count).map (spherePointJs count radius)

/-- Shape names of part_000 (GUI list, line 479). -/
inductive ShapeKind
  | Sphere
  | Cube
  | Heart
  | Fireworks
  | ChristmasTree
  | Planet
deriving DecidableEq

/-- Session state of part_000: `currentPositions` is the live rendered buffer
(the geometry's position attribute), `targetPositions` the morph target;
they are separate `Float32Array`s (lines 73-74). -/
structure Session where
  currentPositions : List (Vec3 ℝ)
  targetPositions : List (Vec3 ℝ)

/-- Shape selector `switchShape` of part_000 lines 221-235: dispatches on the
shape name and regenerates `targetPositions` in place via the matching
generator (each generator writes all `count` entries, so the buffer is
replaced wholesale); the function never references `currentPositions`. -/
noncomputable def switchShape (rnd : ℕ → ℝ) (count : ℕ) (shape : ShapeKind)
    (st : Session) : Session :=
  { st with
    targetPositions :=
      match shape with
      | .Sphere => generateSpherePositions count
      | .Cube => generateCubePositions rnd count
      | .Heart => generateHeartPositions rnd count
      | .Fireworks => generateFireworksPositions rnd count
      | .ChristmasTree => generateChristmasTreePositions rnd count
      | .Planet => generatePlanetPositions rnd count }

/-- Shape names of script.js (GUI list, line 358). -/
inductive JsShape
  | sphere
  | cube
deriving DecidableEq

/-- Session state of script.js: the current shape name, the target buffer,
and the particle geometry's rendered position buffer (separate arrays). -/
structure JsSession where
  currentShape : JsShape
  targetPositions : List (Vec3 ℝ)
  positions : List (Vec3 ℝ)

/-- Shape selector `setTargetShape` of script.js lines 186-194: records the
shape name and reassigns `targetPositions` to a freshly generated array
(sphere radius 150, cube size 200 per the defaults); the rendered `positions`
buffer is never referenced. -/
noncomputable def setTargetShape (rnd : ℕ → ℝ) (count : ℕ) (shape : JsShape)
    (st : JsSession) : JsSession :=
  { st with
    currentShape := shape,
    targetPositions :=
      match shape with
      | .sphere => generateSpherePositionsJs count 150
      | .cube => generateCubePositionsJs rnd count 200 }

/-- C2.  For every measured thumb-to-index distance `d`, the extracted
openness/interaction factor is 0 for `d ≤ pinchMin`, 1 for `d ≥ pinchMax`,
monotone non-decreasing and in fact linear on `[pinchMin, pinchMax]`, and
always lies in `[0, 1]` — both for `interactionFactor` of part_000 line 443
(thresholds 0.03 / 0.2) and for the `mapRange`-based normalized distance of
script.js lines 308-314 (thresholds 0.03 / 0.25). -/
theorem gesture_mapping :
    (∀ d : ℚ, d ≤ PINCH_MIN_DISTANCE → interactionFactorOfDistance d = 0) ∧
    (∀ d : ℚ, PINCH_MAX_DISTANCE ≤ d → interactionFactorOfDistance d = 1) ∧
    (∀ d₁ d₂ : ℚ, d₁ ≤ d₂ → interactionFactorOfDistance d₁ ≤ interactionFactorOfDistance d₂) ∧
    (∀ d : ℚ, PINCH_MIN_DISTANCE ≤ d → d ≤ PINCH_MAX_DISTANCE →
      interactionFactorOfDistance d
        = (d - PINCH_MIN_DISTANCE) / (PINCH_MAX_DISTANCE - PINCH_MIN_DISTANCE)) ∧
    (∀ d : ℚ, 0 ≤ interactionFactorOfDistance d ∧ interactionFactorOfDistance d ≤ 1) ∧
    (∀ d : ℚ, d ≤ 3 / 100 → normalizedPinchDistance d = 0) ∧
    (∀ d : ℚ, 1 / 4 ≤ d → normalizedPinchDistance d = 1) ∧
    (∀ d₁ d₂ : ℚ, d₁ ≤ d₂ → normalizedPinchDistance d₁ ≤ normalizedPinchDistance d₂) ∧
    (∀ d : ℚ, 3 / 100 ≤ d → d ≤ 1 / 4 →
      normalizedPinchDistance d = (d - 3 / 100) / (1 / 4 - 3 / 100)) ∧
    (∀ d : ℚ, 0 ≤ normalizedPinchDistance d ∧ normalizedPinchDistance d ≤ 1) := by
  refine ⟨?_, ?_, ?_, ?_, ?_, ?_, ?_, ?_, ?_, ?_⟩
  · intro d hd
    unfold interactionFactorOfDistance PINCH_MIN_DISTANCE PINCH_MAX_DISTANCE at *
    have hq : (d - 3 / 100) / ((1 : ℚ) / 5 - 3 / 100) ≤ 0 := by
      rw [div_nonpos_iff]; right; constructor <;> linarith
    rw [max_eq_left hq, min_eq_right (by norm_num : (0 : ℚ) ≤ 1)]
  · intro d hd
    unfold interactionFactorOfDistance PINCH_MIN_DISTANCE PINCH_MAX_DISTANCE at *
    have hq : (1 : ℚ) ≤ (d - 3 / 100) / ((1 : ℚ) / 5 - 3 / 100) := by
      rw [le_div_iff₀ (by norm_num)]; linarith
    rw [max_eq_right (le_trans (by norm_num) hq), min_eq_left hq]
  · intro d₁ d₂ h
    unfold interactionFactorOfDistance PINCH_MIN_DISTANCE PINCH_MAX_DISTANCE
    exact min_le_min (le_refl 1)
      (max_le_max (le_refl 0) ((div_le_div_iff_of_pos_right (by norm_num)).mpr (by linarith)))
  · intro d h1 h2
    unfold interactionFactorOfDistance PINCH_MIN_DISTANCE PINCH_MAX_DISTANCE at *
    have h0 : (0 : ℚ) ≤ (d - 3 / 100) / ((1 : ℚ) / 5 - 3 / 100) :=
      div_nonneg (by linarith) (by norm_num)
    have hq1 : (d - 3 / 100) / ((1 : ℚ) / 5 - 3 / 100) ≤ 1 := by
      rw [div_le_one (by norm_num)]; linarith
    rw [max_eq_right h0, min_eq_right hq1]
  · intro d
    unfold interactionFactorOfDistance
    exact ⟨le_min (by norm_num) (le_max_left 0 _), min_le_left 1 _⟩
  · intro d hd
    simp only [normalizedPinchDistance, mapRange]
    rw [min_eq_right (by linarith : d ≤ (1 : ℚ) / 4), max_eq_left hd]
    norm_num
  · intro d hd
    simp only [normalizedPinchDistance, mapRange]
    rw [min_eq_left hd, max_eq_right (by norm_num : (3 : ℚ) / 100 ≤ 1 / 4)]
    norm_num
  · intro d₁ d₂ h
    simp only [normalizedPinchDistance, mapRange]
    have key : ∀ c : ℚ, 0 + (c - 3 / 100) * (1 - 0) / (1 / 4 - 3 / 100)
        = (c - 3 / 100) * (50 / 11) := by intro c; ring
    have hc : max (3 / 100) (min (1 / 4) d₁) ≤ max (3 / 100) (min ((1 : ℚ) / 4) d₂) :=
      max_le_max (le_refl _) (min_le_min (le_refl _) h)
    rw [key, key]
    linarith
  · intro d h1 h2
    simp only [normalizedPinchDistance, mapRange]
    rw [min_eq_right h2, max_eq_right h1]
    ring
  · intro d
    simp only [normalizedPinchDistance, mapRange]
    have key : ∀ c : ℚ, 0 + (c - 3 / 100) * (1 - 0) / (1 / 4 - 3 / 100)
        = (c - 3 / 100) * (50 / 11) := by intro c; ring
    have h1 : (3 : ℚ) / 100 ≤ max (3 / 100) (min (1 / 4) d) := le_max_left _ _
    have h2 : max (3 / 100) (min (1 / 4) d) ≤ (1 : ℚ) / 4 :=
      max_le (by norm_num) (min_le_left _ _)
    rw [key]
    constructor <;> linarith

theorem decayInteraction_nonneg (x : ℚ) : 0 ≤ decayInteraction x :=
  le_max_left 0 _

theorem decayInteraction_le_self {x : ℚ} (hx : 0 ≤ x) : decayInteraction x ≤ x := by
  unfold decayInteraction INTERACTION_DECAY_RATE
  exact max_le hx (by linarith)

theorem decayInteraction_lt_self {x : ℚ} (hx : 0 < x) : decayInteraction x < x := by
  unfold decayInteraction INTERACTION_DECAY_RATE
  exact max_lt hx (by linarith)

theorem iterate_decayInteraction_nonneg {v : ℚ} (h0 : 0 ≤ v) (k : ℕ) :
    0 ≤ decayInteraction^[k] v := by
  induction k with
  | zero => simpa using h0
  | succ n ih =>
    rw [Function.iterate_succ_apply']
    exact decayInteraction_nonneg _

theorem decayDispersionJs_le_one {x : ℚ} (hx : x ≤ 1) : decayDispersionJs x ≤ 1 := by
  unfold decayDispersionJs
  linarith

theorem le_decayDispersionJs {x : ℚ} (hx : x ≤ 1) : x ≤ decayDispersionJs x := by
  unfold decayDispersionJs
  linarith

theorem lt_decayDispersionJs {x : ℚ} (hx : x < 1) : x < decayDispersionJs x := by
  unfold decayDispersionJs
  linarith

theorem iterate_decayDispersionJs_le_one {v : ℚ} (h1 : v ≤ 1) (k : ℕ) :
    decayDispersionJs^[k] v ≤ 1 := by
  induction k with
  | zero => simpa using h1
  | succ n ih =>
    rw [Function.iterate_succ_apply']
    exact decayDispersionJs_le_one ih

/-- C7.  No-hand decay: starting from any openness value `v ∈ [0, 1]`, over
consecutive extractor callbacks with no hand present the value approaches the
configured neutral baseline — 0 in part_000 (`decayInteraction`), 1 in
script.js (`decayDispersionJs`) — strictly so while it differs from the
baseline, and it never overshoots past the baseline, for every number `k` of
callbacks. -/
theorem no_hand_decay (v : ℚ) (h0 : 0 ≤ v) (h1 : v ≤ 1) (k : ℕ) :
    (0 ≤ decayInteraction^[k] v ∧
      decayInteraction^[k + 1] v ≤ decayInteraction^[k] v ∧
      (decayInteraction^[k] v ≠ 0 →
        decayInteraction^[k + 1] v < decayInteraction^[k] v)) ∧
    (decayDispersionJs^[k] v ≤ 1 ∧
      decayDispersionJs^[k] v ≤ decayDispersionJs^[k + 1] v ∧
      (decayDispersionJs^[k] v ≠ 1 →
        decayDispersionJs^[k] v < decayDispersionJs^[k + 1] v)) := by
  have ha : 0 ≤ decayInteraction^[k] v := iterate_decayInteraction_nonneg h0 k
  have hb : decayDispersionJs^[k] v ≤ 1 := iterate_decayDispersionJs_le_one h1 k
  simp only [Function.iterate_succ_apply']
  exact ⟨⟨ha, decayInteraction_le_self ha,
      fun hne => decayInteraction_lt_self (lt_of_le_of_ne ha (Ne.symm hne))⟩,
    ⟨hb, le_decayDispersionJs hb,
      fun hne => lt_decayDispersionJs (lt_of_le_of_ne hb hne)⟩⟩

/-- Witness for C7 at `v = 1/2`, `k = 0`. -/
theorem no_hand_decay_witness :
    (0 ≤ decayInteraction^[0] ((1 : ℚ) / 2) ∧
      decayInteraction^[0 + 1] ((1 : ℚ) / 2) ≤ decayInteraction^[0] ((1 : ℚ) / 2) ∧
      (decayInteraction^[0] ((1 : ℚ) / 2) ≠ 0 →
        decayInteraction^[0 + 1] ((1 : ℚ) / 2) < decayInteraction^[0] ((1 : ℚ) / 2))) ∧
    (decayDispersionJs^[0] ((1 : ℚ) / 2) ≤ 1 ∧
      decayDispersionJs^[0] ((1 : ℚ) / 2) ≤ decayDispersionJs^[0 + 1] ((1 : ℚ) / 2) ∧
      (decayDispersionJs^[0] ((1 : ℚ) / 2) ≠ 1 →
        decayDispersionJs^[0] ((1 : ℚ) / 2) < decayDispersionJs^[0 + 1] ((1 : ℚ) / 2))) :=
  no_hand_decay (1 / 2) (by norm_num) (by norm_num) 0

theorem heartRejectLoop_accepted {α : Type} [LinearOrderedField α] (rnd : ℕ → α)
    (count fuel j : ℕ) (acc : List (Vec3 α))
    (hacc : ∀ v ∈ acc, ∃ x y z : α, heartValue x y z < 0 ∧
      v = ⟨x * (3 / 2), z * (3 / 2), y * (3 / 2)⟩) :
    ∀ v ∈ (heartRejectLoop rnd count fuel j acc).1, ∃ x y z : α,
      heartValue x y z < 0 ∧ v = ⟨x * (3 / 2), z * (3 / 2), y * (3 / 2)⟩ := by
  induction fuel generalizing j acc with
  | zero => simpa [heartRejectLoop] using hacc
  | succ n ih =>
    simp only [heartRejectLoop]
    split_ifs with h1 h2
    · apply ih
      intro v hv
      rcases List.mem_append.mp hv with h | h
      · exact hacc v h
      · rcases List.mem_singleton.mp h with rfl
        exact ⟨rnd j * 3 - 3 / 2, rnd (j + 2) * 3 - 1, rnd (j + 1) * 3 - 3 / 2, h2, rfl⟩
    · exact ih _ _ hacc
    · exact hacc

/-- C5.  Every point placed by the rejection-sampling path of the heart
generator (the first component of `heartRejectLoop`, not the fallback fill)
is a sampled `(x, y, z)` whose pre-scaling coordinates satisfy the implicit
heart inequality `heartValue x y z < 0`, and is stored as
`(x·1.5, z·1.5, y·1.5)`. -/
theorem heart_rejection_inside {α : Type} [LinearOrderedField α]
    (rnd : ℕ → α) (count : ℕ) :
    ∀ v ∈ (heartRejectLoop rnd count (count * 100) 0 []).1, ∃ x y z : α,
      heartValue x y z < 0 ∧ v = ⟨x * (3 / 2), z * (3 / 2), y * (3 / 2)⟩ :=
  heartRejectLoop_accepted rnd count (count * 100) 0 [] (by simp)

/-- Witness for C5: with the constant stream `1/2` and `count = 1`, the first
trial samples `(x, y, z) = (0, 1/2, 0)`, which is accepted and stored as
`(0, 0, 3/4)`. -/
theorem heart_rejection_inside_witness :
    ∃ x y z : ℚ, heartValue x y z < 0 ∧
      (⟨0, 0, 3 / 4⟩ : Vec3 ℚ) = ⟨x * (3 / 2), z * (3 / 2), y * (3 / 2)⟩ :=
  heart_rejection_inside (fun _ => (1 : ℚ) / 2) 1 ⟨0, 0, 3 / 4⟩ (by
    have e : heartRejectLoop (fun _ => (1 : ℚ) / 2) 1 (1 * 100) 0 []
        = ([⟨0, 0, 3 / 4⟩], 3) := by
      have e1 : (1 * 100 : ℕ) = 99 + 1 := by norm_num
      rw [e1, heartRejectLoop]
      rw [if_pos (by simp)]
      rw [if_pos (by norm_num [heartValue])]
      rw [heartRejectLoop]
      rw [if_neg (by simp)]
      norm_num
    rw [e]
    simp)

theorem heartFill_length {α : Type} [LinearOrderedField α] (rnd : ℕ → α) :
    ∀ (k j : ℕ), (heartFill rnd j k).length = k := by
  intro k
  induction k with
  | zero => intro j; simp [heartFill]
  | succ n ih => intro j; simp [heartFill, ih]

theorem heartRejectLoop_length_le {α : Type} [LinearOrderedField α] (rnd : ℕ → α)
    (count fuel j : ℕ) (acc : List (Vec3 α)) (hacc : acc.length ≤ count) :
    ((heartRejectLoop rnd count fuel j acc).1).length ≤ count := by
  induction fuel generalizing j acc with
  | zero => simpa [heartRejectLoop] using hacc
  | succ n ih =>
    simp only [heartRejectLoop]
    split_ifs with h1 h2
    · exact ih _ _ (by simp; omega)
    · exact ih _ _ hacc
    · exact hacc

theorem heartRejectLoop_stream_le {α : Type} [LinearOrderedField α] (rnd : ℕ → α)
    (count fuel j : ℕ) (acc : List (Vec3 α)) :
    (heartRejectLoop rnd count fuel j acc).2 ≤ j + 3 * fuel := by
  induction fuel generalizing j acc with
  | zero => simp [heartRejectLoop]
  | succ n ih =>
    simp only [heartRejectLoop]
    split_ifs with h1 h2
    · exact le_trans (ih _ _) (by omega)
    · exact le_trans (ih _ _) (by omega)
    · omega

/-- C6.  Heart generator termination and totality: for every `count ≥ 0` and
every stream of random draws, `generateHeartPositions` produces exactly
`count` points, and the rejection loop executes at most `count × 100` trials
(it consumes at most `3 · count · 100` random draws; each trial draws three). -/
theorem heart_generator_total {α : Type} [LinearOrderedField α]
    (rnd : ℕ → α) (count : ℕ) :
    (generateHeartPositions rnd count).length = count ∧
    (heartRejectLoop rnd count (count * 100) 0 []).2 ≤ 3 * (count * 100) := by
  constructor
  · have hle := heartRejectLoop_length_le rnd count (count * 100) 0 [] (by simp)
    unfold generateHeartPositions
    simp only [List.length_append, heartFill_length]
    omega
  · simpa using heartRejectLoop_stream_le rnd count (count * 100) 0 []

theorem cubeFaceLoopJs_length {α : Type} [Field α] (rnd : ℕ → α) (count : ℕ)
    (size : α) (face : ℕ) (fuel : ℕ) :
    ∀ (p : ℕ) (acc : List (Vec3 α)), acc.length + fuel ≤ count →
      ((cubeFaceLoopJs rnd count size face fuel p acc).1).length
        = acc.length + fuel := by
  induction fuel with
  | zero => intro p acc h; simp [cubeFaceLoopJs]
  | succ n ih =>
    intro p acc h
    simp only [cubeFaceLoopJs]
    rw [if_pos (by omega)]
    rw [ih _ _ (by simp; omega)]
    simp
    omega

theorem cubeFacesLoopJs_length {α : Type} [Field α] (rnd : ℕ → α) (count : ℕ)
    (size : α) (fRem : ℕ) :
    ∀ (face p : ℕ) (acc : List (Vec3 α)),
      acc.length + fRem * (count / 6) ≤ count →
      (cubeFacesLoopJs rnd count size fRem face p acc).length
        = acc.length + fRem * (count / 6) := by
  induction fRem with
  | zero => intro face p acc h; simp [cubeFacesLoopJs]
  | succ n ih =>
    intro face p acc h
    rw [add_one_mul] at h ⊢
    simp only [cubeFacesLoopJs]
    by_cases hg : acc.length < count
    · rw [if_pos hg]
      have hpre : acc.length + count / 6 ≤ count := by
        generalize n * (count / 6) = m at h; omega
      have hinner := cubeFaceLoopJs_length rnd count size face (count / 6) p acc hpre
      rw [ih _ _ _ (by rw [hinner]; generalize n * (count / 6) = m at h ⊢; omega)]
      rw [hinner]
      generalize n * (count / 6) = m
      omega
    · rw [if_neg hg]
      generalize n * (count / 6) = m at h ⊢
      omega

/-- C10.  Cube generator remainder (script.js variant, which allots exactly
`⌊count / 6⌋` points to each of the six faces): when `count` is not divisible
by 6, the trailing `count % 6` slots are never written by any face loop and
stay at the zero-initialized origin `(0, 0, 0)`, while the returned array
still has exactly `count` points. -/
theorem cube_remainder_unwritten (rnd : ℕ → ℚ) (count : ℕ) (size : ℚ)
    (_h6 : count % 6 ≠ 0) :
    (generateCubePositionsJs rnd count size).length = count ∧
    ∀ i : ℕ, 6 * (count / 6) ≤ i → i < count →
      (generateCubePositionsJs rnd count size).getD i ⟨0, 0, 0⟩ = ⟨0, 0, 0⟩ := by
  have hwlen : (cubeFacesLoopJs rnd count size 6 0 0 ([] : List (Vec3 ℚ))).length
      = 6 * (count / 6) := by
    have h := cubeFacesLoopJs_length rnd count size 6 0 0 ([] : List (Vec3 ℚ))
      (by simp; omega)
    simpa using h
  constructor
  · unfold generateCubePositionsJs
    simp only [List.length_append, List.length_replicate, hwlen]
    omega
  · intro i hi hic
    unfold generateCubePositionsJs
    rw [List.getD_append_right _ _ _ _ (by rw [hwlen]; omega)]
    rw [List.getD_eq_getElem?_getD]
    apply List.getElem?_getD_replicate_default_eq

/-- Witness for C10 at `count = 7` (so `7 % 6 = 1` trailing slot), constant
stream `1/2`, `size = 2`: the seventh entry (index 6) is the origin. -/
theorem cube_remainder_unwritten_witness :
    (generateCubePositionsJs (fun _ => (1 : ℚ) / 2) 7 2).getD 6 ⟨0, 0, 0⟩
      = ⟨0, 0, 0⟩ :=
  (cube_remainder_unwritten (fun _ => (1 : ℚ) / 2) 7 2 (by norm_num)).2 6
    (by norm_num) (by norm_num)

theorem updateParticlesGo_of_dispersion_le (rnd : ℕ → ℝ) (s dispersion rOff : ℝ)
    (hd : dispersion ≤ 0.1) :
    ∀ (ts cs : List (Vec3 ℝ)) (p : ℕ),
      updateParticlesGo rnd s dispersion rOff ts cs p
        = List.zipWith (lerpPoint s) ts cs := by
  intro ts
  induction ts with
  | nil => intro cs p; cases cs <;> simp [updateParticlesGo]
  | cons t ts ih =>
    intro cs p
    cases cs with
    | nil => simp [updateParticlesGo]
    | cons c cs =>
      simp only [updateParticlesGo, List.zipWith_cons_cons]
      rw [if_neg (fun hcon => absurd hcon.1 (not_lt.2 hd))]
      rw [ih cs p]
      rfl

theorem updateParticlesGo_length (rnd : ℕ → ℝ) (s dispersion rOff : ℝ) :
    ∀ (ts cs : List (Vec3 ℝ)) (p : ℕ),
      (updateParticlesGo rnd s dispersion rOff ts cs p).length
        = min ts.length cs.length := by
  intro ts
  induction ts with
  | nil => intro cs p; cases cs <;> simp [updateParticlesGo]
  | cons t ts ih =>
    intro cs p
    cases cs with
    | nil => simp [updateParticlesGo]
    | cons c cs =>
      simp only [updateParticlesGo]
      split_ifs <;> simp only [List.length_cons, ih] <;> omega

theorem lerpPoint_self (s : ℝ) (t : Vec3 ℝ) : lerpPoint s t t = t := by
  unfold lerpPoint
  ext <;> ring

theorem zipWith_lerpPoint_self (s : ℝ) :
    ∀ ts : List (Vec3 ℝ), List.zipWith (lerpPoint s) ts ts = ts := by
  intro ts
  induction ts with
  | nil => simp
  | cons t ts ih => simp [lerpPoint_self, ih]

/-- C3.  Motion Integrator idempotence at rest: when `currentPositions` equals
`targetPositions` exactly and the dispersion magnitude `interactionFactor *
dispersionStrength` is zero, one `updateParticles` call leaves every particle
position unchanged. -/
theorem updateParticles_rest_idempotent (rnd : ℕ → ℝ)
    (s interactionFactor dispersionStrength rOff : ℝ)
    (hdisp : interactionFactor * dispersionStrength = 0)
    (targets : List (Vec3 ℝ)) :
    updateParticles rnd s interactionFactor dispersionStrength rOff targets targets
      = targets := by
  unfold updateParticles
  rw [hdisp, updateParticlesGo_of_dispersion_le _ _ _ _ (by norm_num),
    zipWith_lerpPoint_self]

/-- Witness for C3 at a one-particle state resting on its target. -/
theorem updateParticles_rest_idempotent_witness :
    updateParticles (fun _ => 0) (1 / 20) 0 5 (1 / 2) [⟨1, 2, 3⟩] [⟨1, 2, 3⟩]
      = [⟨1, 2, 3⟩] :=
  updateParticles_rest_idempotent (fun _ => 0) (1 / 20) 0 5 (1 / 2)
    (by norm_num) [⟨1, 2, 3⟩]

/-- C9.  Determinism of the update step at low dispersion: whenever the
dispersion magnitude `interactionFactor * dispersionStrength` is at most the
`0.1` threshold, `updateParticles` is a deterministic function of the current
and target positions — two runs with different random streams from equal
state produce identical new positions, because the random scatter is only
sampled on the dispersion branch. -/
theorem updateParticles_low_dispersion_deterministic (rnd₁ rnd₂ : ℕ → ℝ)
    (s interactionFactor dispersionStrength rOff : ℝ)
    (hdisp : interactionFactor * dispersionStrength ≤ 0.1)
    (targets cur : List (Vec3 ℝ)) :
    updateParticles rnd₁ s interactionFactor dispersionStrength rOff targets cur
      = updateParticles rnd₂ s interactionFactor dispersionStrength rOff targets cur := by
  unfold updateParticles
  rw [updateParticlesGo_of_dispersion_le _ _ _ _ hdisp,
    updateParticlesGo_of_dispersion_le _ _ _ _ hdisp]

/-- Witness for C9 at the threshold dispersion `(1/50) * 5 = 0.1` with two
different streams. -/
theorem updateParticles_low_dispersion_deterministic_witness :
    updateParticles (fun _ => 0) (1 / 20) (1 / 50) 5 (1 / 2) [⟨1, 2, 3⟩] [⟨0, 0, 0⟩]
      = updateParticles (fun _ => 1) (1 / 20) (1 / 50) 5 (1 / 2) [⟨1, 2, 3⟩] [⟨0, 0, 0⟩] :=
  updateParticles_low_dispersion_deterministic (fun _ => 0) (fun _ => 1)
    (1 / 20) (1 / 50) 5 (1 / 2) (by norm_num) [⟨1, 2, 3⟩] [⟨0, 0, 0⟩]

theorem euclidDist_nonneg (a b : Vec3 ℝ) : 0 ≤ euclidDist a b :=
  Real.sqrt_nonneg _

theorem euclidDist_lerpPoint (s : ℝ) (t c : Vec3 ℝ) :
    euclidDist (lerpPoint s t c) t = |1 - s| * euclidDist c t := by
  unfold euclidDist distSq lerpPoint
  have h : (c.x + (t.x - c.x) * s - t.x) ^ 2 + (c.y + (t.y - c.y) * s - t.y) ^ 2 +
      (c.z + (t.z - c.z) * s - t.z) ^ 2
      = (1 - s) ^ 2 * ((c.x - t.x) ^ 2 + (c.y - t.y) ^ 2 + (c.z - t.z) ^ 2) := by
    ring
  rw [h, Real.sqrt_mul (sq_nonneg _), Real.sqrt_sq_eq_abs]

theorem zipWith_getD (f : Vec3 ℝ → Vec3 ℝ → Vec3 ℝ) :
    ∀ (ts cs : List (Vec3 ℝ)) (i : ℕ), i < ts.length → i < cs.length →
      (List.zipWith f ts cs).getD i ⟨0, 0, 0⟩
        = f (ts.getD i ⟨0, 0, 0⟩) (cs.getD i ⟨0, 0, 0⟩) := by
  intro ts
  induction ts with
  | nil => intro cs i h1 h2; simp at h1
  | cons t ts ih =>
    intro cs i h1 h2
    cases cs with
    | nil => simp at h2
    | cons c cs =>
      cases i with
      | zero => simp
      | succ n =>
        simp only [List.zipWith_cons_cons, List.getD_cons_succ]
        exact ih cs n (by simpa using h1) (by simpa using h2)

theorem updateParticles_getD (rnd : ℕ → ℝ) (s dispersionStrength rOff : ℝ)
    (targets cur : List (Vec3 ℝ)) (hlen : cur.length = targets.length)
    (i : ℕ) (hi : i < targets.length) :
    (updateParticles rnd s 0 dispersionStrength rOff targets cur).getD i ⟨0, 0, 0⟩
      = lerpPoint s (targets.getD i ⟨0, 0, 0⟩) (cur.getD i ⟨0, 0, 0⟩) := by
  unfold updateParticles
  rw [zero_mul, updateParticlesGo_of_dispersion_le _ _ _ _ (by norm_num)]
  exact zipWith_getD _ _ _ _ hi (by omega)

/-- C1.  Convergence of the Motion Integrator with zero dispersion: for every
initial particle state, fixed target list and smoothing factor `s ∈ (0, 1)`,
along any trajectory of repeated `updateParticles` calls (with
`interactionFactor = 0`, so the dispersion magnitude is zero) each particle's
Euclidean distance to its target point is monotonically non-increasing,
strictly decreasing while nonzero, and falls below any fixed tolerance
`ε > 0` after a bounded number of iterations. -/
theorem motion_convergence (s dispersionStrength rOff : ℝ)
    (hs0 : 0 < s) (hs1 : s < 1) (rnds : ℕ → ℕ → ℝ)
    (targets : List (Vec3 ℝ)) (p : ℕ → List (Vec3 ℝ))
    (hlen : (p 0).length = targets.length)
    (hstep : ∀ k, p (k + 1)
      = updateParticles (rnds k) s 0 dispersionStrength rOff targets (p k))
    (i : ℕ) (hi : i < targets.length) :
    (∀ k, euclidDist ((p (k + 1)).getD i ⟨0, 0, 0⟩) (targets.getD i ⟨0, 0, 0⟩)
        ≤ euclidDist ((p k).getD i ⟨0, 0, 0⟩) (targets.getD i ⟨0, 0, 0⟩)) ∧
    (∀ k, euclidDist ((p k).getD i ⟨0, 0, 0⟩) (targets.getD i ⟨0, 0, 0⟩) ≠ 0 →
      euclidDist ((p (k + 1)).getD i ⟨0, 0, 0⟩) (targets.getD i ⟨0, 0, 0⟩)
        < euclidDist ((p k).getD i ⟨0, 0, 0⟩) (targets.getD i ⟨0, 0, 0⟩)) ∧
    (∀ ε : ℝ, 0 < ε → ∃ K : ℕ, ∀ k, K ≤ k →
      euclidDist ((p k).getD i ⟨0, 0, 0⟩) (targets.getD i ⟨0, 0, 0⟩) ≤ ε) := by
  have hlenall : ∀ k, (p k).length = targets.length := by
    intro k
    induction k with
    | zero => exact hlen
    | succ n ih =>
      rw [hstep n]
      unfold updateParticles
      rw [updateParticlesGo_length, ih, min_self]
  have hrec : ∀ k,
      euclidDist ((p (k + 1)).getD i ⟨0, 0, 0⟩) (targets.getD i ⟨0, 0, 0⟩)
        = (1 - s) * euclidDist ((p k).getD i ⟨0, 0, 0⟩) (targets.getD i ⟨0, 0, 0⟩) := by
    intro k
    rw [hstep k, updateParticles_getD _ _ _ _ targets (p k) (hlenall k) i hi,
      euclidDist_lerpPoint, abs_of_nonneg (by linarith)]
  refine ⟨?_, ?_, ?_⟩
  · intro k
    have hd := euclidDist_nonneg ((p k).getD i ⟨0, 0, 0⟩) (targets.getD i ⟨0, 0, 0⟩)
    rw [hrec k]
    nlinarith
  · intro k hne
    have hd := euclidDist_nonneg ((p k).getD i ⟨0, 0, 0⟩) (targets.getD i ⟨0, 0, 0⟩)
    have hpos : 0 < euclidDist ((p k).getD i ⟨0, 0, 0⟩) (targets.getD i ⟨0, 0, 0⟩) :=
      lt_of_le_of_ne hd (Ne.symm hne)
    rw [hrec k]
    nlinarith
  · intro ε hε
    have hgeom : ∀ k,
        euclidDist ((p k).getD i ⟨0, 0, 0⟩) (targets.getD i ⟨0, 0, 0⟩)
          = (1 - s) ^ k
            * euclidDist ((p 0).getD i ⟨0, 0, 0⟩) (targets.getD i ⟨0, 0, 0⟩) := by
      intro k
      induction k with
      | zero => simp
      | succ n ih => rw [hrec n, ih, pow_succ]; ring
    have he0n : 0 ≤ euclidDist ((p 0).getD i ⟨0, 0, 0⟩) (targets.getD i ⟨0, 0, 0⟩) :=
      euclidDist_nonneg _ _
    set e0 := euclidDist ((p 0).getD i ⟨0, 0, 0⟩) (targets.getD i ⟨0, 0, 0⟩) with he0
    have hr0 : (0 : ℝ) ≤ 1 - s := by linarith
    have hr1 : (1 : ℝ) - s < 1 := by linarith
    obtain ⟨n, hn⟩ :=
      exists_pow_lt_of_lt_one (div_pos hε (by linarith : (0 : ℝ) < e0 + 1)) hr1
    refine ⟨n, fun k hk => ?_⟩
    rw [hgeom k]
    calc (1 - s) ^ k * e0 ≤ (1 - s) ^ n * e0 :=
          mul_le_mul_of_nonneg_right (pow_le_pow_of_le_one hr0 (by linarith) hk) he0n
      _ ≤ ε / (e0 + 1) * e0 := mul_le_mul_of_nonneg_right hn.le he0n
      _ ≤ ε := by
          rw [div_mul_eq_mul_div, div_le_iff₀ (by linarith)]
          nlinarith

/-- Witness for C1: one particle starting at the origin converging to the
target `(1, 0, 0)` with smoothing `1/2`; after one step its distance to the
target has not increased. -/
theorem motion_convergence_witness :
    euclidDist (([⟨1 - (1 / 2 : ℝ) ^ (0 + 1), 0, 0⟩] : List (Vec3 ℝ)).getD 0 ⟨0, 0, 0⟩)
        (([⟨(1 : ℝ), 0, 0⟩] : List (Vec3 ℝ)).getD 0 ⟨0, 0, 0⟩)
      ≤ euclidDist (([⟨1 - (1 / 2 : ℝ) ^ 0, 0, 0⟩] : List (Vec3 ℝ)).getD 0 ⟨0, 0, 0⟩)
        (([⟨(1 : ℝ), 0, 0⟩] : List (Vec3 ℝ)).getD 0 ⟨0, 0, 0⟩) := by
  have h := motion_convergence (1 / 2) 5 (1 / 2) (by norm_num) (by norm_num)
    (fun _ _ => 0) [⟨1, 0, 0⟩] (fun k => [⟨1 - (1 / 2 : ℝ) ^ k, 0, 0⟩])
    (by simp)
    (by
      intro k
      show [(⟨1 - (1 / 2 : ℝ) ^ (k + 1), 0, 0⟩ : Vec3 ℝ)]
          = updateParticles (fun _ => 0) (1 / 2) 0 5 (1 / 2) [⟨1, 0, 0⟩]
            [⟨1 - (1 / 2 : ℝ) ^ k, 0, 0⟩]
      unfold updateParticles
      rw [zero_mul, updateParticlesGo_of_dispersion_le _ _ _ _ (by norm_num)]
      show [(⟨1 - (1 / 2 : ℝ) ^ (k + 1), 0, 0⟩ : Vec3 ℝ)]
          = [lerpPoint (1 / 2) ⟨1, 0, 0⟩ ⟨1 - (1 / 2 : ℝ) ^ k, 0, 0⟩]
      congr 1
      unfold lerpPoint
      simp only [Vec3.mk.injEq]
      refine ⟨?_, by ring, by ring⟩
      rw [pow_succ]
      ring)
    0 (by simp)
  exact h.1 0

theorem abs_two_mul_le {x y : ℝ} (hx : |x| ≤ 1) (hy : |y| ≤ 1) : |2 * x * y| ≤ 2 := by
  rw [abs_mul, abs_mul, abs_two]
  nlinarith [abs_nonneg x, abs_nonneg y]

theorem abs_two_cos_le (a : ℝ) : |2 * Real.cos a| ≤ 2 := by
  rw [abs_mul, abs_two]
  nlinarith [Real.abs_cos_le_one a, abs_nonneg (Real.cos a)]

theorem spherePoint_bound (count i : ℕ) : coordBound (spherePoint count i) 2 := by
  simp only [spherePoint, coordBound]
  exact ⟨abs_two_mul_le (Real.abs_sin_le_one _) (Real.abs_cos_le_one _),
    abs_two_mul_le (Real.abs_sin_le_one _) (Real.abs_sin_le_one _),
    abs_two_cos_le _⟩

theorem abs_lerp_le {s c d B : ℝ} (hs0 : 0 ≤ s) (hs1 : s ≤ 1)
    (hc : |c| ≤ B) (hd : |d| ≤ B) : |c + (d - c) * s| ≤ B := by
  have he : c + (d - c) * s = (1 - s) * c + s * d := by ring
  rw [he]
  calc |(1 - s) * c + s * d| ≤ |(1 - s) * c| + |s * d| := abs_add _ _
    _ = (1 - s) * |c| + s * |d| := by
        rw [abs_mul, abs_mul, abs_of_nonneg (by linarith : (0 : ℝ) ≤ 1 - s),
          abs_of_nonneg hs0]
    _ ≤ (1 - s) * B + s * B :=
        add_le_add (mul_le_mul_of_nonneg_left hc (by linarith))
          (mul_le_mul_of_nonneg_left hd hs0)
    _ = B := by ring

theorem abs_radial_dest_le {a L disp ro M rOff : ℝ} (haM : |a| ≤ M) (haL : |a| ≤ L)
    (hL : 0 < L) (hdisp : 0 ≤ disp) (hro : |ro| ≤ rOff) :
    |a + a / L * disp + ro| ≤ M + disp + rOff := by
  have h1 : |a / L| ≤ 1 := by
    rw [abs_div, abs_of_pos hL, div_le_one hL]
    exact haL
  have h2 : |a / L * disp| ≤ disp := by
    rw [abs_mul, abs_of_nonneg hdisp]
    nlinarith [abs_nonneg (a / L)]
  calc |a + a / L * disp + ro| ≤ |a + a / L * disp| + |ro| := abs_add _ _
    _ ≤ |a| + |a / L * disp| + |ro| := by
        have := abs_add a (a / L * disp)
        linarith
    _ ≤ M + disp + rOff := by linarith

theorem abs_randomOffset_le {u rOff : ℝ} (h0 : 0 ≤ u) (h1 : u < 1) (hro : 0 ≤ rOff) :
    |(u - 1 / 2) * rOff| ≤ rOff := by
  rw [abs_mul, abs_of_nonneg hro]
  have h : |u - 1 / 2| ≤ 1 / 2 := abs_le.mpr ⟨by linarith, by linarith⟩
  nlinarith [abs_nonneg (u - 1 / 2)]

theorem updateParticlesGo_bounded (rnd : ℕ → ℝ) (s disp rOff M : ℝ)
    (hs0 : 0 ≤ s) (hs1 : s ≤ 1) (hdisp : 0 ≤ disp) (hrOff : 0 ≤ rOff)
    (hrnd : ∀ j, 0 ≤ rnd j ∧ rnd j < 1) :
    ∀ (ts cs : List (Vec3 ℝ)) (p : ℕ),
      (∀ v ∈ ts, coordBound v M) → (∀ v ∈ cs, coordBound v M) →
      ∀ v ∈ updateParticlesGo rnd s disp rOff ts cs p,
        coordBound v (M + disp + rOff) := by
  intro ts
  induction ts with
  | nil => intro cs p hT hC v hv; cases cs <;> simp [updateParticlesGo] at hv
  | cons t ts ih =>
    intro cs p hT hC v hv
    cases cs with
    | nil => simp [updateParticlesGo] at hv
    | cons c cs =>
      have hTt : coordBound t M := hT t (List.mem_cons_self _ _)
      have hCc : coordBound c M := hC c (List.mem_cons_self _ _)
      have hTr : ∀ w ∈ ts, coordBound w M := fun w hw => hT w (List.mem_cons_of_mem _ hw)
      have hCr : ∀ w ∈ cs, coordBound w M := fun w hw => hC w (List.mem_cons_of_mem _ hw)
      have hxL : |t.x| ≤ Real.sqrt (t.x * t.x + t.y * t.y + t.z * t.z) := by
        rw [← Real.sqrt_sq_eq_abs]
        apply Real.sqrt_le_sqrt
        nlinarith [sq_nonneg t.y, sq_nonneg t.z]
      have hyL : |t.y| ≤ Real.sqrt (t.x * t.x + t.y * t.y + t.z * t.z) := by
        rw [← Real.sqrt_sq_eq_abs]
        apply Real.sqrt_le_sqrt
        nlinarith [sq_nonneg t.x, sq_nonneg t.z]
      have hzL : |t.z| ≤ Real.sqrt (t.x * t.x + t.y * t.y + t.z * t.z) := by
        rw [← Real.sqrt_sq_eq_abs]
        apply Real.sqrt_le_sqrt
        nlinarith [sq_nonneg t.x, sq_nonneg t.y]
      have hroB : |(rnd p - 1 / 2) * rOff| ≤ rOff :=
        abs_randomOffset_le (hrnd p).1 (hrnd p).2 hrOff
      simp only [updateParticlesGo] at hv
      by_cases hcond : 0.1 < disp ∧ 0 < Real.sqrt (t.x * t.x + t.y * t.y + t.z * t.z)
      · rw [if_pos hcond] at hv
        rcases List.mem_cons.mp hv with rfl | hmem
        · exact ⟨abs_lerp_le hs0 hs1 (le_trans hCc.1 (by linarith))
              (abs_radial_dest_le hTt.1 hxL hcond.2 hdisp hroB),
            abs_lerp_le hs0 hs1 (le_trans hCc.2.1 (by linarith))
              (abs_radial_dest_le hTt.2.1 hyL hcond.2 hdisp hroB),
            abs_lerp_le hs0 hs1 (le_trans hCc.2.2 (by linarith))
              (abs_radial_dest_le hTt.2.2 hzL hcond.2 hdisp hroB)⟩
        · exact ih cs (p + 1) hTr hCr v hmem
      · rw [if_neg hcond] at hv
        rcases List.mem_cons.mp hv with rfl | hmem
        · exact ⟨abs_lerp_le hs0 hs1 (le_trans hCc.1 (by linarith))
              (le_trans hTt.1 (by linarith)),
            abs_lerp_le hs0 hs1 (le_trans hCc.2.1 (by linarith))
              (le_trans hTt.2.1 (by linarith)),
            abs_lerp_le hs0 hs1 (le_trans hCc.2.2 (by linarith))
              (le_trans hTt.2.2 (by linarith))⟩
        · exact ih cs p hTr hCr v hmem

theorem cubeFaceFill000_length {α : Type} [Field α] (rnd : ℕ → α) (count : ℕ)
    (size : α) (f : ℕ) (fuel : ℕ) :
    ∀ (p : ℕ) (acc : List (Vec3 α)), acc.length + fuel ≤ count →
      ((cubeFaceFill000 rnd count size f fuel p acc).1).length
        = acc.length + fuel := by
  induction fuel with
  | zero => intro p acc h; simp [cubeFaceFill000]
  | succ n ih =>
    intro p acc h
    simp only [cubeFaceFill000]
    rw [if_pos (by omega)]
    rw [ih _ _ (by simp; omega)]
    simp
    omega

theorem cubeFaces000_length {α : Type} [Field α] (rnd : ℕ → α) (count : ℕ)
    (size : α) (fRem : ℕ) :
    ∀ (f p : ℕ) (acc : List (Vec3 α)), f + fRem = 6 →
      (fRem = 0 → acc.length = count) →
      (fRem ≠ 0 → acc.length = f * (count / 6)) →
      (cubeFaces000 rnd count size fRem f p acc).length = count := by
  induction fRem with
  | zero =>
    intro f p acc _ hfull _
    simp only [cubeFaces000]
    exact hfull rfl
  | succ n ih =>
    intro f p acc h6 _ hpart
    have hacc : acc.length = f * (count / 6) := hpart (Nat.succ_ne_zero n)
    simp only [cubeFaces000]
    by_cases hf : f = 5
    · have hn : n = 0 := by omega
      subst hf
      subst hn
      rw [if_pos rfl]
      have hacc5 : acc.length ≤ count := by rw [hacc]; omega
      have hinner := cubeFaceFill000_length rnd count size 5
        (count - acc.length) p acc (by omega)
      simp only [cubeFaces000]
      rw [hinner]
      omega
    · rw [if_neg hf]
      have hle6 : 6 * (count / 6) ≤ count := by omega
      have hpre : acc.length + count / 6 ≤ count := by
        rw [hacc]
        have h2 : (f + 1) * (count / 6) ≤ 6 * (count / 6) :=
          Nat.mul_le_mul_right _ (by omega)
        have h1 : f * (count / 6) + count / 6 = (f + 1) * (count / 6) :=
          (add_one_mul f (count / 6)).symm
        linarith
      have hinner := cubeFaceFill000_length rnd count size f (count / 6) p acc hpre
      exact ih (f + 1) _ _ (by omega)
        (fun hn0 => absurd (show f = 5 by omega) hf)
        (fun _ => by rw [hinner, hacc, add_one_mul])

theorem generateCubePositions_length {α : Type} [Field α] (rnd : ℕ → α)
    (count : ℕ) : (generateCubePositions rnd count).length = count := by
  unfold generateCubePositions
  exact cubeFaces000_length rnd count 2 6 0 0 [] (by omega)
    (fun h => absurd h (by omega)) (fun _ => by simp)

theorem generateHeartPositions_length {α : Type} [LinearOrderedField α]
    (rnd : ℕ → α) (count : ℕ) :
    (generateHeartPositions rnd count).length = count := by
  have hle := heartRejectLoop_length_le rnd count (count * 100) 0 [] (by simp)
  unfold generateHeartPositions
  simp only [List.length_append, heartFill_length]
  omega

theorem fireworksLayerFill_length (rnd : ℕ → ℝ) (count : ℕ) (radius : ℝ)
    (cnt : ℕ) (fuel : ℕ) :
    ∀ (i p : ℕ) (acc : List (Vec3 ℝ)), acc.length + fuel ≤ count →
      ((fireworksLayerFill rnd count radius cnt fuel i p acc).1).length
        = acc.length + fuel := by
  induction fuel with
  | zero => intro i p acc h; simp [fireworksLayerFill]
  | succ n ih =>
    intro i p acc h
    simp only [fireworksLayerFill]
    rw [if_pos (by omega)]
    rw [ih _ _ _ (by simp; omega)]
    simp
    omega

theorem fireworksLayers_length (rnd : ℕ → ℝ) (count : ℕ) (lRem : ℕ) :
    ∀ (layer p : ℕ) (acc : List (Vec3 ℝ)), layer + lRem = 5 →
      (lRem = 0 → acc.length = count) →
      (lRem ≠ 0 → acc.length = layer * (count / 5)) →
      (fireworksLayers rnd count lRem layer p acc).length = count := by
  induction lRem with
  | zero =>
    intro layer p acc _ hfull _
    simp only [fireworksLayers]
    exact hfull rfl
  | succ n ih =>
    intro layer p acc h5 _ hpart
    have hacc : acc.length = layer * (count / 5) := hpart (Nat.succ_ne_zero n)
    simp only [fireworksLayers]
    by_cases hl : layer = 4
    · have hn : n = 0 := by omega
      subst hl
      subst hn
      rw [if_pos rfl]
      have hacc4 : acc.length ≤ count := by rw [hacc]; omega
      have hinner := fireworksLayerFill_length rnd count
        (1 / 2 + (4 : ℕ) * (2 / 5)) (count - acc.length) (count - acc.length)
        0 p acc (by omega)
      simp only [fireworksLayers]
      rw [hinner]
      omega
    · rw [if_neg hl]
      have hle5 : 5 * (count / 5) ≤ count := by omega
      have hpre : acc.length + count / 5 ≤ count := by
        rw [hacc]
        have h2 : (layer + 1) * (count / 5) ≤ 5 * (count / 5) :=
          Nat.mul_le_mul_right _ (by omega)
        have h1 : layer * (count / 5) + count / 5 = (layer + 1) * (count / 5) :=
          (add_one_mul layer (count / 5)).symm
        linarith
      have hinner := fireworksLayerFill_length rnd count
        (1 / 2 + (layer : ℕ) * (2 / 5)) (count / 5) (count / 5) 0 p acc hpre
      exact ih (layer + 1) _ _ (by omega)
        (fun hn0 => absurd (show layer = 4 by omega) hl)
        (fun _ => by rw [hinner, hacc, add_one_mul])

theorem generateFireworksPositions_length (rnd : ℕ → ℝ) (count : ℕ) :
    (generateFireworksPositions rnd count).length = count := by
  unfold generateFireworksPositions
  exact fireworksLayers_length rnd count 5 0 0 [] (by omega)
    (fun h => absurd h (by omega)) (fun _ => by simp)

theorem treeBodyLayerFill_length (rnd : ℕ → ℝ) (treeP : ℕ)
    (layerY layerRadius : ℝ) (fuel : ℕ) :
    ∀ (p : ℕ) (acc : List (Vec3 ℝ)), acc.length + fuel ≤ treeP →
      ((treeBodyLayerFill rnd treeP layerY layerRadius fuel p acc).1).length
        = acc.length + fuel := by
  induction fuel with
  | zero => intro p acc h; simp [treeBodyLayerFill]
  | succ n ih =>
    intro p acc h
    simp only [treeBodyLayerFill]
    rw [if_pos (by omega)]
    rw [ih _ _ (by simp; omega)]
    simp
    omega

theorem treeBodyLayers_length (rnd : ℕ → ℝ) (treeP : ℕ) (lRem : ℕ) :
    ∀ (layer p : ℕ) (acc : List (Vec3 ℝ)), layer + lRem = 6 →
      (lRem = 0 → acc.length = treeP) →
      (lRem ≠ 0 → acc.length = layer * (treeP / 6)) →
      ((treeBodyLayers rnd treeP lRem layer p acc).1).length = treeP := by
  induction lRem with
  | zero =>
    intro layer p acc _ hfull _
    simp only [treeBodyLayers]
    exact hfull rfl
  | succ n ih =>
    intro layer p acc h6 _ hpart
    have hacc : acc.length = layer * (treeP / 6) := hpart (Nat.succ_ne_zero n)
    simp only [treeBodyLayers]
    by_cases hl : layer = 5
    · have hn : n = 0 := by omega
      subst hl
      subst hn
      rw [if_pos rfl]
      have hacc5 : acc.length ≤ treeP := by rw [hacc]; omega
      have hinner := treeBodyLayerFill_length rnd treeP
        (-(3 : ℝ) / 2 + ((5 : ℕ) : ℝ) / 6 * 3 * (9 / 10))
        ((6 : ℝ) / 5 * (1 - ((5 : ℕ) : ℝ) / 6 * (9 / 10)))
        (treeP - acc.length) p acc (by omega)
      simp only [treeBodyLayers]
      rw [hinner]
      omega
    · rw [if_neg hl]
      have hle6 : 6 * (treeP / 6) ≤ treeP := by omega
      have hpre : acc.length + treeP / 6 ≤ treeP := by
        rw [hacc]
        have h2 : (layer + 1) * (treeP / 6) ≤ 6 * (treeP / 6) :=
          Nat.mul_le_mul_right _ (by omega)
        have h1 : layer * (treeP / 6) + treeP / 6 = (layer + 1) * (treeP / 6) :=
          (add_one_mul layer (treeP / 6)).symm
        linarith
      have hinner := treeBodyLayerFill_length rnd treeP
        (-(3 : ℝ) / 2 + ((layer : ℕ) : ℝ) / 6 * 3 * (9 / 10))
        ((6 : ℝ) / 5 * (1 - ((layer : ℕ) : ℝ) / 6 * (9 / 10)))
        (treeP / 6) p acc hpre
      exact ih (layer + 1) _ _ (by omega)
        (fun hn0 => absurd (show layer = 5 by omega) hl)
        (fun _ => by rw [hinner, hacc, add_one_mul])

theorem treeTrunkFill_length (rnd : ℕ → ℝ) (cap : ℕ) (fuel : ℕ) :
    ∀ (p : ℕ) (acc : List (Vec3 ℝ)), acc.length + fuel ≤ cap →
      ((treeTrunkFill rnd cap fuel p acc).1).length = acc.length + fuel := by
  induction fuel with
  | zero => intro p acc h; simp [treeTrunkFill]
  | succ n ih =>
    intro p acc h
    simp only [treeTrunkFill]
    rw [if_pos (by omega)]
    rw [ih _ _ (by simp; omega)]
    simp
    omega

theorem treeStarFill_length (rnd : ℕ → ℝ) (count starP : ℕ) (fuel : ℕ) :
    ∀ (i p : ℕ) (acc : List (Vec3 ℝ)), acc.length + fuel ≤ count →
      (treeStarFill rnd count starP fuel i p acc).length = acc.length + fuel := by
  induction fuel with
  | zero => intro i p acc h; simp [treeStarFill]
  | succ n ih =>
    intro i p acc h
    simp only [treeStarFill]
    rw [if_pos (by omega)]
    rw [ih _ _ _ (by simp; omega)]
    simp
    omega

theorem generateChristmasTreePositions_length (rnd : ℕ → ℝ) (count : ℕ) :
    (generateChristmasTreePositions rnd count).length = count := by
  simp only [generateChristmasTreePositions]
  set B := treeBodyLayers rnd (count - count * 5 / 100 - count * 8 / 100) 6 0 0
    ([] : List (Vec3 ℝ)) with hB
  set T := treeTrunkFill rnd (count - count * 5 / 100) (count * 8 / 100) B.2 B.1
    with hT
  have h1 : B.1.length = count - count * 5 / 100 - count * 8 / 100 := by
    rw [hB]
    exact treeBodyLayers_length rnd _ 6 0 0 [] (by omega)
      (fun h => absurd h (by omega)) (fun _ => by simp)
  have hle1 : B.1.length + count * 8 / 100 ≤ count - count * 5 / 100 := by
    rw [h1]
    omega
  have h2 : T.1.length
      = count - count * 5 / 100 - count * 8 / 100 + count * 8 / 100 := by
    rw [hT]
    rw [treeTrunkFill_length rnd _ _ B.2 B.1 hle1, h1]
  have h3 := treeStarFill_length rnd count (count * 5 / 100) (count * 5 / 100)
    0 T.2 T.1 (by rw [h2]; omega)
  rw [h3, h2]
  omega

theorem planetRingFill_length (rnd : ℕ → ℝ) (count : ℕ) (fuel : ℕ) :
    ∀ (p : ℕ) (acc : List (Vec3 ℝ)), acc.length + fuel ≤ count →
      (planetRingFill rnd count fuel p acc).length = acc.length + fuel := by
  induction fuel with
  | zero => intro p acc h; simp [planetRingFill]
  | succ n ih =>
    intro p acc h
    simp only [planetRingFill]
    rw [if_pos (by omega)]
    rw [ih _ _ (by simp; omega)]
    simp
    omega

theorem generatePlanetPositions_length (rnd : ℕ → ℝ) (count : ℕ) :
    (generatePlanetPositions rnd count).length = count := by
  simp only [generatePlanetPositions]
  rw [planetRingFill_length rnd count (count - count * 6 / 10) 0 _
    (by simp; omega)]
  simp
  omega

theorem coordBound_mono {v : Vec3 ℝ} {B C : ℝ} (h : coordBound v B) (hBC : B ≤ C) :
    coordBound v C :=
  ⟨le_trans h.1 hBC, le_trans h.2.1 hBC, le_trans h.2.2 hBC⟩

theorem abs_mul_le_abs_left {r x : ℝ} (hx : |x| ≤ 1) : |r * x| ≤ |r| := by
  rw [abs_mul]
  nlinarith [abs_nonneg r, abs_nonneg x]

theorem abs_mul2_le_abs {r x y : ℝ} (hx : |x| ≤ 1) (hy : |y| ≤ 1) :
    |r * x * y| ≤ |r| := by
  rw [abs_mul, abs_mul, mul_assoc]
  exact mul_le_of_le_one_right (abs_nonneg r)
    (mul_le_one₀ hx (abs_nonneg y) hy)

theorem abs_draw_le_one {u : ℝ} (h0 : 0 ≤ u) (h1 : u < 1) : |u| ≤ 1 :=
  abs_le.mpr ⟨by linarith, by linarith⟩

theorem abs_draw_sub_half {u : ℝ} (h0 : 0 ≤ u) (h1 : u < 1) : |u - 1 / 2| ≤ 1 / 2 :=
  abs_le.mpr ⟨by linarith, by linarith⟩

theorem generateSpherePositions_length (count : ℕ) :
    (generateSpherePositions count).length = count := by
  simp [generateSpherePositions]

theorem generateSpherePositions_bounded (count : ℕ) :
    ∀ v ∈ generateSpherePositions count, coordBound v 2 := by
  intro v hv
  rcases List.mem_map.mp hv with ⟨i, _, rfl⟩
  exact spherePoint_bound count i

theorem cubeFacePoint000_bound {u v h : ℝ} (hu : |u| ≤ 1) (hv : |v| ≤ 1)
    (hh : |h| ≤ 1) (f : ℕ) : coordBound (cubeFacePoint000 f u v h) 3 := by
  have h3 : ∀ x : ℝ, |x| ≤ 1 → |x| ≤ 3 := fun x hx => le_trans hx (by norm_num)
  have hnh : |(-h)| ≤ 1 := by rwa [abs_neg]
  match f with
  | 0 => exact ⟨h3 _ hh, h3 _ hu, h3 _ hv⟩
  | 1 => exact ⟨h3 _ hnh, h3 _ hu, h3 _ hv⟩
  | 2 => exact ⟨h3 _ hu, h3 _ hh, h3 _ hv⟩
  | 3 => exact ⟨h3 _ hu, h3 _ hnh, h3 _ hv⟩
  | 4 => exact ⟨h3 _ hu, h3 _ hv, h3 _ hh⟩
  | n + 5 => exact ⟨h3 _ hu, h3 _ hv, h3 _ hnh⟩

theorem cubeFaceFill000_bounded (rnd : ℕ → ℝ) (count f : ℕ)
    (hrnd : ∀ j, 0 ≤ rnd j ∧ rnd j < 1) (fuel : ℕ) :
    ∀ (p : ℕ) (acc : List (Vec3 ℝ)), (∀ w ∈ acc, coordBound w 3) →
      ∀ w ∈ (cubeFaceFill000 rnd count 2 f fuel p acc).1, coordBound w 3 := by
  induction fuel with
  | zero => intro p acc hacc; simpa [cubeFaceFill000] using hacc
  | succ n ih =>
    intro p acc hacc
    simp only [cubeFaceFill000]
    split_ifs with hg
    · apply ih
      intro w hw
      rcases List.mem_append.mp hw with hmem | hmem
      · exact hacc w hmem
      · rcases List.mem_singleton.mp hmem with rfl
        apply cubeFacePoint000_bound _ _ _ f
        · rw [abs_mul, abs_two]
          have := abs_draw_sub_half (hrnd p).1 (hrnd p).2
          linarith
        · rw [abs_mul, abs_two]
          have := abs_draw_sub_half (hrnd (p + 1)).1 (hrnd (p + 1)).2
          linarith
        · norm_num
    · exact hacc

theorem cubeFaces000_bounded (rnd : ℕ → ℝ) (count : ℕ)
    (hrnd : ∀ j, 0 ≤ rnd j ∧ rnd j < 1) (fRem : ℕ) :
    ∀ (f p : ℕ) (acc : List (Vec3 ℝ)), (∀ w ∈ acc, coordBound w 3) →
      ∀ w ∈ cubeFaces000 rnd count 2 fRem f p acc, coordBound w 3 := by
  induction fRem with
  | zero => intro f p acc hacc; simpa [cubeFaces000] using hacc
  | succ n ih =>
    intro f p acc hacc
    simp only [cubeFaces000]
    exact ih (f + 1) _ _ (cubeFaceFill000_bounded rnd count f hrnd _ _ _ hacc)

theorem generateCubePositions_bounded (rnd : ℕ → ℝ) (count : ℕ)
    (hrnd : ∀ j, 0 ≤ rnd j ∧ rnd j < 1) :
    ∀ w ∈ generateCubePositions rnd count, coordBound w 3 := by
  unfold generateCubePositions
  exact cubeFaces000_bounded rnd count hrnd 6 0 0 [] (by simp)

theorem abs_mul_const_le {a c B : ℝ} (ha : |a| ≤ B) (hc : 0 ≤ c) :
    |a * c| ≤ B * c := by
  rw [abs_mul, abs_of_nonneg hc]
  nlinarith [abs_nonneg a]

theorem heartRejectLoop_bounded (rnd : ℕ → ℝ) (count : ℕ)
    (hrnd : ∀ j, 0 ≤ rnd j ∧ rnd j < 1) (fuel : ℕ) :
    ∀ (j : ℕ) (acc : List (Vec3 ℝ)), (∀ w ∈ acc, coordBound w 3) →
      ∀ w ∈ (heartRejectLoop rnd count fuel j acc).1, coordBound w 3 := by
  induction fuel with
  | zero => intro j acc hacc; simpa [heartRejectLoop] using hacc
  | succ n ih =>
    intro j acc hacc
    simp only [heartRejectLoop]
    split_ifs with h1 h2
    · apply ih
      intro w hw
      rcases List.mem_append.mp hw with hmem | hmem
      · exact hacc w hmem
      · rcases List.mem_singleton.mp hmem with rfl
        have hx : |rnd j * 3 - 3 / 2| ≤ 3 / 2 :=
          abs_le.mpr ⟨by linarith [(hrnd j).1], by linarith [(hrnd j).2]⟩
        have hz : |rnd (j + 1) * 3 - 3 / 2| ≤ 3 / 2 :=
          abs_le.mpr ⟨by linarith [(hrnd (j + 1)).1], by linarith [(hrnd (j + 1)).2]⟩
        have hy : |rnd (j + 2) * 3 - 1| ≤ 2 :=
          abs_le.mpr ⟨by linarith [(hrnd (j + 2)).1], by linarith [(hrnd (j + 2)).2]⟩
        exact ⟨le_trans (abs_mul_const_le hx (by norm_num)) (by norm_num),
          le_trans (abs_mul_const_le hz (by norm_num)) (by norm_num),
          le_trans (abs_mul_const_le hy (by norm_num)) (by norm_num)⟩
    · exact ih _ _ hacc
    · exact hacc

theorem heartFill_bounded (rnd : ℕ → ℝ)
    (hrnd : ∀ j, 0 ≤ rnd j ∧ rnd j < 1) :
    ∀ (k j : ℕ), ∀ w ∈ heartFill rnd j k, coordBound w 3 := by
  intro k
  induction k with
  | zero => intro j w hw; simp [heartFill] at hw
  | succ n ih =>
    intro j w hw
    simp only [heartFill, List.mem_cons] at hw
    rcases hw with rfl | hw
    · have hx : |(rnd j - 1 / 2) * 2| ≤ 1 := by
        rw [abs_mul, abs_two]
        have := abs_draw_sub_half (hrnd j).1 (hrnd j).2
        linarith
      have hy : |rnd (j + 1) * 2| ≤ 2 := by
        rw [abs_mul, abs_two]
        have := abs_draw_le_one (hrnd (j + 1)).1 (hrnd (j + 1)).2
        nlinarith [abs_nonneg (rnd (j + 1))]
      have hz : |(rnd (j + 2) - 1 / 2) * 2| ≤ 1 := by
        rw [abs_mul, abs_two]
        have := abs_draw_sub_half (hrnd (j + 2)).1 (hrnd (j + 2)).2
        linarith
      exact ⟨le_trans (abs_mul_const_le hx (by norm_num)) (by norm_num),
        le_trans (abs_mul_const_le hy (by norm_num)) (by norm_num),
        le_trans (abs_mul_const_le hz (by norm_num)) (by norm_num)⟩
    · exact ih _ w hw

theorem generateHeartPositions_bounded (rnd : ℕ → ℝ) (count : ℕ)
    (hrnd : ∀ j, 0 ≤ rnd j ∧ rnd j < 1) :
    ∀ w ∈ generateHeartPositions rnd count, coordBound w 3 := by
  unfold generateHeartPositions
  intro w hw
  rcases List.mem_append.mp hw with h | h
  · exact heartRejectLoop_bounded rnd count hrnd _ _ _ (by simp) w h
  · exact heartFill_bounded rnd hrnd _ _ w h

theorem fireworksPoint_bound {rr trail radius : ℝ} (h0 : 0 ≤ rr) (h1 : rr < 1)
    (ht0 : 0 ≤ trail) (hr0 : 0 ≤ radius) (hr1 : radius ≤ 21 / 10)
    (cnt i : ℕ) : coordBound (fireworksPoint rr trail radius cnt i) 3 := by
  simp only [fireworksPoint]
  set ph := Real.arccos (1 - 2 * ((i : ℝ) + 1 / 2) / (cnt : ℝ)) with hph
  set th := Real.pi * (1 + Real.sqrt 5) * ((i : ℝ) + 1 / 2) with hth
  have hRR : |radius * (4 / 5 + rr * (2 / 5))| ≤ 63 / 25 := by
    rw [abs_mul, abs_of_nonneg hr0,
      abs_of_nonneg (by linarith : (0 : ℝ) ≤ 4 / 5 + rr * (2 / 5))]
    nlinarith
  have hx : |radius * (4 / 5 + rr * (2 / 5)) * Real.sin ph * Real.cos th| ≤ 63 / 25 :=
    le_trans (abs_mul2_le_abs (Real.abs_sin_le_one ph) (Real.abs_cos_le_one th)) hRR
  have hy : |radius * (4 / 5 + rr * (2 / 5)) * Real.sin ph * Real.sin th| ≤ 63 / 25 :=
    le_trans (abs_mul2_le_abs (Real.abs_sin_le_one ph) (Real.abs_sin_le_one th)) hRR
  have hz : |radius * (4 / 5 + rr * (2 / 5)) * Real.cos ph| ≤ 63 / 25 :=
    le_trans (abs_mul_le_abs_left (Real.abs_cos_le_one ph)) hRR
  split_ifs with htr
  · have hf0 : (0 : ℝ) ≤ 3 / 10 + trail := by linarith
    have hb : ∀ a : ℝ, |a| ≤ 63 / 25 → |a * (3 / 10 + trail)| ≤ 3 := by
      intro a ha
      rw [abs_mul, abs_of_nonneg hf0]
      nlinarith [abs_nonneg a]
    exact ⟨hb _ hx, hb _ hy, hb _ hz⟩
  · exact ⟨le_trans hx (by norm_num), le_trans hy (by norm_num),
      le_trans hz (by norm_num)⟩

theorem fireworksLayerFill_bounded (rnd : ℕ → ℝ) (count : ℕ) (radius : ℝ)
    (cnt : ℕ) (hrnd : ∀ j, 0 ≤ rnd j ∧ rnd j < 1)
    (hr0 : 0 ≤ radius) (hr1 : radius ≤ 21 / 10) (fuel : ℕ) :
    ∀ (i p : ℕ) (acc : List (Vec3 ℝ)), (∀ w ∈ acc, coordBound w 3) →
      ∀ w ∈ (fireworksLayerFill rnd count radius cnt fuel i p acc).1,
        coordBound w 3 := by
  induction fuel with
  | zero => intro i p acc hacc; simpa [fireworksLayerFill] using hacc
  | succ n ih =>
    intro i p acc hacc
    simp only [fireworksLayerFill]
    split_ifs with hg
    · apply ih
      intro w hw
      rcases List.mem_append.mp hw with hmem | hmem
      · exact hacc w hmem
      · rcases List.mem_singleton.mp hmem with rfl
        exact fireworksPoint_bound (hrnd p).1 (hrnd p).2 (hrnd (p + 1)).1 hr0 hr1 cnt i
    · exact hacc

theorem fireworksLayers_bounded (rnd : ℕ → ℝ) (count : ℕ)
    (hrnd : ∀ j, 0 ≤ rnd j ∧ rnd j < 1) (lRem : ℕ) :
    ∀ (layer p : ℕ) (acc : List (Vec3 ℝ)), layer + lRem = 5 →
      (∀ w ∈ acc, coordBound w 3) →
      ∀ w ∈ fireworksLayers rnd count lRem layer p acc, coordBound w 3 := by
  induction lRem with
  | zero => intro layer p acc _ hacc; simpa [fireworksLayers] using hacc
  | succ n ih =>
    intro layer p acc h5 hacc
    simp only [fireworksLayers]
    have hl4 : (layer : ℝ) ≤ 4 := by exact_mod_cast (by omega : layer ≤ 4)
    have hl0 : (0 : ℝ) ≤ (layer : ℝ) := Nat.cast_nonneg _
    have hr0 : (0 : ℝ) ≤ 1 / 2 + (layer : ℝ) * (2 / 5) := by nlinarith
    have hr1 : 1 / 2 + (layer : ℝ) * (2 / 5) ≤ 21 / 10 := by linarith
    exact ih (layer + 1) _ _ (by omega)
      (fireworksLayerFill_bounded rnd count _ _ hrnd hr0 hr1 _ _ _ _ hacc)

theorem generateFireworksPositions_bounded (rnd : ℕ → ℝ) (count : ℕ)
    (hrnd : ∀ j, 0 ≤ rnd j ∧ rnd j < 1) :
    ∀ w ∈ generateFireworksPositions rnd count, coordBound w 3 := by
  unfold generateFireworksPositions
  exact fireworksLayers_bounded rnd count hrnd 5 0 0 [] (by omega) (by simp)

theorem treeBodyLayerFill_bounded (rnd : ℕ → ℝ) (treeP : ℕ)
    (layerY layerRadius : ℝ) (hrnd : ∀ j, 0 ≤ rnd j ∧ rnd j < 1)
    (hY : |layerY| ≤ 3 / 2) (hR0 : 0 ≤ layerRadius) (hR1 : layerRadius ≤ 6 / 5)
    (fuel : ℕ) :
    ∀ (p : ℕ) (acc : List (Vec3 ℝ)), (∀ w ∈ acc, coordBound w 3) →
      ∀ w ∈ (treeBodyLayerFill rnd treeP layerY layerRadius fuel p acc).1,
        coordBound w 3 := by
  induction fuel with
  | zero => intro p acc hacc; simpa [treeBodyLayerFill] using hacc
  | succ n ih =>
    intro p acc hacc
    simp only [treeBodyLayerFill]
    split_ifs with hg
    · apply ih
      intro w hw
      rcases List.mem_append.mp hw with hmem | hmem
      · exact hacc w hmem
      · rcases List.mem_singleton.mp hmem with rfl
        have hrB : |rnd (p + 1) * layerRadius| ≤ 6 / 5 := by
          rw [abs_mul, abs_of_nonneg (hrnd (p + 1)).1, abs_of_nonneg hR0]
          nlinarith [(hrnd (p + 1)).2, (hrnd (p + 1)).1]
        have hhv : |(rnd (p + 2) - 1 / 2) * (3 / 10)| ≤ 3 / 20 := by
          rw [abs_mul, abs_of_nonneg (by norm_num : (0 : ℝ) ≤ 3 / 10)]
          nlinarith [abs_draw_sub_half (hrnd (p + 2)).1 (hrnd (p + 2)).2,
            abs_nonneg (rnd (p + 2) - 1 / 2)]
        refine ⟨le_trans (abs_mul_le_abs_left (Real.abs_cos_le_one _))
            (le_trans hrB (by norm_num)), ?_,
          le_trans (abs_mul_le_abs_left (Real.abs_sin_le_one _))
            (le_trans hrB (by norm_num))⟩
        calc |layerY + (rnd (p + 2) - 1 / 2) * (3 / 10)|
            ≤ |layerY| + |(rnd (p + 2) - 1 / 2) * (3 / 10)| := abs_add _ _
          _ ≤ 3 := by linarith
    · exact hacc

theorem treeBodyLayers_bounded (rnd : ℕ → ℝ) (treeP : ℕ)
    (hrnd : ∀ j, 0 ≤ rnd j ∧ rnd j < 1) (lRem : ℕ) :
    ∀ (layer p : ℕ) (acc : List (Vec3 ℝ)), layer + lRem = 6 →
      (∀ w ∈ acc, coordBound w 3) →
      ∀ w ∈ (treeBodyLayers rnd treeP lRem layer p acc).1, coordBound w 3 := by
  induction lRem with
  | zero => intro layer p acc _ hacc; simpa [treeBodyLayers] using hacc
  | succ n ih =>
    intro layer p acc h6 hacc
    simp only [treeBodyLayers]
    have hl5 : (layer : ℝ) ≤ 5 := by exact_mod_cast (by omega : layer ≤ 5)
    have hl0 : (0 : ℝ) ≤ (layer : ℝ) := Nat.cast_nonneg _
    have hY : |-(3 : ℝ) / 2 + (layer : ℝ) / 6 * 3 * (9 / 10)| ≤ 3 / 2 :=
      abs_le.mpr ⟨by nlinarith, by nlinarith⟩
    have hR0 : (0 : ℝ) ≤ (6 : ℝ) / 5 * (1 - (layer : ℝ) / 6 * (9 / 10)) := by
      nlinarith
    have hR1 : (6 : ℝ) / 5 * (1 - (layer : ℝ) / 6 * (9 / 10)) ≤ 6 / 5 := by
      nlinarith
    exact ih (layer + 1) _ _ (by omega)
      (treeBodyLayerFill_bounded rnd treeP _ _ hrnd hY hR0 hR1 _ _ _ hacc)

theorem treeTrunkFill_bounded (rnd : ℕ → ℝ) (cap : ℕ)
    (hrnd : ∀ j, 0 ≤ rnd j ∧ rnd j < 1) (fuel : ℕ) :
    ∀ (p : ℕ) (acc : List (Vec3 ℝ)), (∀ w ∈ acc, coordBound w 3) →
      ∀ w ∈ (treeTrunkFill rnd cap fuel p acc).1, coordBound w 3 := by
  induction fuel with
  | zero => intro p acc hacc; simpa [treeTrunkFill] using hacc
  | succ n ih =>
    intro p acc hacc
    simp only [treeTrunkFill]
    split_ifs with hg
    · apply ih
      intro w hw
      rcases List.mem_append.mp hw with hmem | hmem
      · exact hacc w hmem
      · rcases List.mem_singleton.mp hmem with rfl
        have hrB : |rnd (p + 1) * (3 / 20)| ≤ 3 / 20 := by
          rw [abs_mul, abs_of_nonneg (hrnd (p + 1)).1,
            abs_of_nonneg (by norm_num : (0 : ℝ) ≤ 3 / 20)]
          nlinarith [(hrnd (p + 1)).2, (hrnd (p + 1)).1]
        have hyB : |-(3 : ℝ) / 2 - rnd (p + 2) * (2 / 5)| ≤ 3 :=
          abs_le.mpr ⟨by nlinarith [(hrnd (p + 2)).2], by nlinarith [(hrnd (p + 2)).1]⟩
        exact ⟨le_trans (abs_mul_le_abs_left (Real.abs_cos_le_one _))
            (le_trans hrB (by norm_num)), hyB,
          le_trans (abs_mul_le_abs_left (Real.abs_sin_le_one _))
            (le_trans hrB (by norm_num))⟩
    · exact hacc

theorem treeStarFill_bounded (rnd : ℕ → ℝ) (count starP : ℕ)
    (hrnd : ∀ j, 0 ≤ rnd j ∧ rnd j < 1) (fuel : ℕ) :
    ∀ (i p : ℕ) (acc : List (Vec3 ℝ)), (∀ w ∈ acc, coordBound w 3) →
      ∀ w ∈ treeStarFill rnd count starP fuel i p acc, coordBound w 3 := by
  induction fuel with
  | zero => intro i p acc hacc; simpa [treeStarFill] using hacc
  | succ n ih =>
    intro i p acc hacc
    simp only [treeStarFill]
    by_cases hg : acc.length < count
    case neg => rw [if_neg hg]; exact hacc
    rw [if_pos hg]
    · apply ih
      intro w hw
      rcases List.mem_append.mp hw with hmem | hmem
      · exact hacc w hmem
      · rcases List.mem_singleton.mp hmem with rfl
        have hr0 : (0 : ℝ) ≤ (if i % 2 = 0 then (1 : ℝ) / 4 else 1 / 4 * (2 / 5)) := by
          split_ifs <;> norm_num
        have hr1 : (if i % 2 = 0 then (1 : ℝ) / 4 else 1 / 4 * (2 / 5)) ≤ 1 / 4 := by
          split_ifs <;> norm_num
        have hfac0 : (0 : ℝ) ≤ 1 / 2 + rnd p * (1 / 2) := by
          nlinarith [(hrnd p).1]
        have hfac1 : 1 / 2 + rnd p * (1 / 2) ≤ 1 := by
          nlinarith [(hrnd p).2]
        have hRR : |(if i % 2 = 0 then (1 : ℝ) / 4 else 1 / 4 * (2 / 5))
            * (1 / 2 + rnd p * (1 / 2))| ≤ 1 / 4 := by
          rw [abs_mul, abs_of_nonneg hr0, abs_of_nonneg hfac0]
          nlinarith
        have hyB : |(3 : ℝ) / 2 * (9 / 10) + 1 / 5 + (rnd (p + 1) - 1 / 2) * (1 / 10)| ≤ 3 := by
          have hd := abs_draw_sub_half (hrnd (p + 1)).1 (hrnd (p + 1)).2
          have hoff : |(rnd (p + 1) - 1 / 2) * (1 / 10)| ≤ 1 / 20 := by
            rw [abs_mul, abs_of_nonneg (by norm_num : (0 : ℝ) ≤ 1 / 10)]
            nlinarith [abs_nonneg (rnd (p + 1) - 1 / 2)]
          calc |(3 : ℝ) / 2 * (9 / 10) + 1 / 5 + (rnd (p + 1) - 1 / 2) * (1 / 10)|
              ≤ |(3 : ℝ) / 2 * (9 / 10) + 1 / 5| + |(rnd (p + 1) - 1 / 2) * (1 / 10)| :=
                abs_add _ _
            _ ≤ 3 := by
                rw [abs_of_nonneg (by norm_num : (0 : ℝ) ≤ 3 / 2 * (9 / 10) + 1 / 5)]
                linarith
        exact ⟨le_trans (abs_mul_le_abs_left (Real.abs_cos_le_one _))
            (le_trans hRR (by norm_num)), hyB,
          le_trans (abs_mul_le_abs_left (Real.abs_sin_le_one _))
            (le_trans hRR (by norm_num))⟩

theorem generateChristmasTreePositions_bounded (rnd : ℕ → ℝ) (count : ℕ)
    (hrnd : ∀ j, 0 ≤ rnd j ∧ rnd j < 1) :
    ∀ w ∈ generateChristmasTreePositions rnd count, coordBound w 3 := by
  simp only [generateChristmasTreePositions]
  exact treeStarFill_bounded rnd count _ hrnd _ _ _ _
    (treeTrunkFill_bounded rnd _ hrnd _ _ _
      (treeBodyLayers_bounded rnd _ hrnd 6 0 0 [] (by omega) (by simp)))

theorem planetSpherePoint_bound (planetP i : ℕ) :
    coordBound (planetSpherePoint planetP i) 3 := by
  simp only [planetSpherePoint]
  exact ⟨le_trans (abs_mul2_le_abs (Real.abs_sin_le_one _) (Real.abs_cos_le_one _))
      (by rw [abs_one]; norm_num),
    le_trans (abs_mul2_le_abs (Real.abs_sin_le_one _) (Real.abs_sin_le_one _))
      (by rw [abs_one]; norm_num),
    le_trans (abs_mul_le_abs_left (Real.abs_cos_le_one _))
      (by rw [abs_one]; norm_num)⟩

theorem abs_zero_cos_sub {z B : ℝ} (t : ℝ) (hz : |z| ≤ B) :
    |0 * Real.cos t - z * Real.sin t| ≤ B := by
  have e : 0 * Real.cos t - z * Real.sin t = -(z * Real.sin t) := by ring
  rw [e, abs_neg]
  exact le_trans (abs_mul_le_abs_left (Real.abs_sin_le_one t)) hz

theorem abs_zero_sin_add {z B : ℝ} (t : ℝ) (hz : |z| ≤ B) :
    |0 * Real.sin t + z * Real.cos t| ≤ B := by
  have e : 0 * Real.sin t + z * Real.cos t = z * Real.cos t := by ring
  rw [e]
  exact le_trans (abs_mul_le_abs_left (Real.abs_cos_le_one t)) hz

theorem planetRingFill_bounded (rnd : ℕ → ℝ) (count : ℕ)
    (hrnd : ∀ j, 0 ≤ rnd j ∧ rnd j < 1) (fuel : ℕ) :
    ∀ (p : ℕ) (acc : List (Vec3 ℝ)), (∀ w ∈ acc, coordBound w 3) →
      ∀ w ∈ planetRingFill rnd count fuel p acc, coordBound w 3 := by
  induction fuel with
  | zero => intro p acc hacc; simpa [planetRingFill] using hacc
  | succ n ih =>
    intro p acc hacc
    simp only [planetRingFill]
    split_ifs with hg
    · apply ih
      intro w hw
      rcases List.mem_append.mp hw with hmem | hmem
      · exact hacc w hmem
      · rcases List.mem_singleton.mp hmem with rfl
        have hrB : |(7 : ℝ) / 5 + rnd (p + 1) * (11 / 5 - 7 / 5)| ≤ 11 / 5 :=
          abs_le.mpr ⟨by nlinarith [(hrnd (p + 1)).1], by nlinarith [(hrnd (p + 1)).2]⟩
        have hzB : |((7 : ℝ) / 5 + rnd (p + 1) * (11 / 5 - 7 / 5))
            * Real.sin (rnd p * (2 * Real.pi))| ≤ 3 :=
          le_trans (abs_mul_le_abs_left (Real.abs_sin_le_one _))
            (le_trans hrB (by norm_num))
        exact ⟨le_trans (abs_mul_le_abs_left (Real.abs_cos_le_one _))
            (le_trans hrB (by norm_num)),
          abs_zero_cos_sub _ hzB, abs_zero_sin_add _ hzB⟩
    · exact hacc

theorem generatePlanetPositions_bounded (rnd : ℕ → ℝ) (count : ℕ)
    (hrnd : ∀ j, 0 ≤ rnd j ∧ rnd j < 1) :
    ∀ w ∈ generatePlanetPositions rnd count, coordBound w 3 := by
  simp only [generatePlanetPositions]
  apply planetRingFill_bounded rnd count hrnd _ _ _
  intro w hw
  rcases List.mem_map.mp hw with ⟨i, _, rfl⟩
  exact planetSpherePoint_bound _ i

theorem switchShape_target_finite (rnd : ℕ → ℝ) (count : ℕ)
    (hrnd : ∀ j, 0 ≤ rnd j ∧ rnd j < 1) (shape : ShapeKind) (st : Session) :
    (switchShape rnd count shape st).targetPositions.length = count ∧
    ∀ w ∈ (switchShape rnd count shape st).targetPositions, coordBound w 3 := by
  cases shape with
  | Sphere =>
    exact ⟨generateSpherePositions_length count, fun w hw =>
      coordBound_mono (generateSpherePositions_bounded count w hw) (by norm_num)⟩
  | Cube =>
    exact ⟨generateCubePositions_length rnd count,
      generateCubePositions_bounded rnd count hrnd⟩
  | Heart =>
    exact ⟨generateHeartPositions_length rnd count,
      generateHeartPositions_bounded rnd count hrnd⟩
  | Fireworks =>
    exact ⟨generateFireworksPositions_length rnd count,
      generateFireworksPositions_bounded rnd count hrnd⟩
  | ChristmasTree =>
    exact ⟨generateChristmasTreePositions_length rnd count,
      generateChristmasTreePositions_bounded rnd count hrnd⟩
  | Planet =>
    exact ⟨generatePlanetPositions_length rnd count,
      generatePlanetPositions_bounded rnd count hrnd⟩

/-- C8.  Finiteness invariant: after any shape generation — `switchShape` on
any of the six shape names regenerates `targetPositions` with exactly `count`
points whose coordinates are all bounded by 3 (so finite), given random draws
in `[0, 1)`; in particular the golden-spiral sphere generator produces
exactly `count` points bounded by its radius 2 — and after any Motion
Integrator update step — which preserves the particle count and keeps every
coordinate bounded by the explicit finite bound `M + dispersion + rOff`
whenever every input coordinate is bounded by `M`, the smoothing factor is in
`[0, 1]`, and the dispersion magnitude and scatter scale are non-negative —
every coordinate of the target point set and of the live particle positions
is a finite number, and the arrays hold exactly their `count` and are never
resized. -/
theorem finiteness_invariant (count : ℕ) (rnd : ℕ → ℝ)
    (s interactionFactor dispersionStrength rOff M : ℝ)
    (hs0 : 0 ≤ s) (hs1 : s ≤ 1)
    (hdisp : 0 ≤ interactionFactor * dispersionStrength)
    (hrOff : 0 ≤ rOff) (hrnd : ∀ j, 0 ≤ rnd j ∧ rnd j < 1)
    (shape : ShapeKind) (st : Session)
    (targets cur : List (Vec3 ℝ)) (hlen : cur.length = targets.length)
    (hT : ∀ v ∈ targets, coordBound v M) (hC : ∀ v ∈ cur, coordBound v M) :
    ((switchShape rnd count shape st).targetPositions.length = count ∧
      ∀ v ∈ (switchShape rnd count shape st).targetPositions, coordBound v 3) ∧
    ((generateSpherePositions count).length = count ∧
      ∀ v ∈ generateSpherePositions count, coordBound v 2) ∧
    ((updateParticles rnd s interactionFactor dispersionStrength rOff
        targets cur).length = targets.length ∧
      ∀ v ∈ updateParticles rnd s interactionFactor dispersionStrength rOff targets cur,
        coordBound v (M + interactionFactor * dispersionStrength + rOff)) := by
  refine ⟨switchShape_target_finite rnd count hrnd shape st,
    ⟨generateSpherePositions_length count, generateSpherePositions_bounded count⟩,
    ⟨?_, ?_⟩⟩
  · unfold updateParticles
    rw [updateParticlesGo_length, hlen, min_self]
  · unfold updateParticles
    exact updateParticlesGo_bounded rnd s (interactionFactor * dispersionStrength)
      rOff M hs0 hs1 hdisp hrOff hrnd targets cur 0 hT hC

/-- Witness for C8 at a one-particle state with bound `M = 3`. -/
theorem finiteness_invariant_witness :
    (updateParticles (fun _ => (1 / 2 : ℝ)) (1 / 20) 0 5 (1 / 2)
        [⟨1, 2, 3⟩] [⟨1, 2, 3⟩]).length
      = ([⟨1, 2, 3⟩] : List (Vec3 ℝ)).length :=
  ((finiteness_invariant 1 (fun _ => (1 / 2 : ℝ)) (1 / 20) 0 5 (1 / 2) 3
      (by norm_num) (by norm_num) (by norm_num) (by norm_num)
      (fun j => ⟨by norm_num, by norm_num⟩) ShapeKind.Sphere ⟨[], []⟩
      [⟨1, 2, 3⟩] [⟨1, 2, 3⟩] rfl
      (by
        intro v hv
        simp only [List.mem_singleton] at hv
        subst hv
        exact ⟨by norm_num, by norm_num, by norm_num⟩)
      (by
        intro v hv
        simp only [List.mem_singleton] at hv
        subst hv
        exact ⟨by norm_num, by norm_num, by norm_num⟩)).2.2).1

/-- C4.  Shape switch does not teleport: for every current particle state and
every supported shape name, the shape selector (`switchShape` of part_000,
`setTargetShape` of script.js) rewrites only `targetPositions` (and, for
script.js, the shape name) to the matching generator's output; the rendered
position buffer (`currentPositions` / `positions`) is unchanged immediately
after the call. -/
theorem shape_switch_frame (rnd : ℕ → ℝ) (count : ℕ) (shape : ShapeKind)
    (jshape : JsShape) (st : Session) (jst : JsSession) :
    (switchShape rnd count shape st).currentPositions = st.currentPositions ∧
    (switchShape rnd count shape st).targetPositions =
      (match shape with
        | .Sphere => generateSpherePositions count
        | .Cube => generateCubePositions rnd count
        | .Heart => generateHeartPositions rnd count
        | .Fireworks => generateFireworksPositions rnd count
        | .ChristmasTree => generateChristmasTreePositions rnd count
        | .Planet => generatePlanetPositions rnd count) ∧
    (setTargetShape rnd count jshape jst).positions = jst.positions ∧
    (setTargetShape rnd count jshape jst).currentShape = jshape ∧
    (setTargetShape rnd count jshape jst).targetPositions =
      (match jshape with
        | .sphere => generateSpherePositionsJs count 150
        | .cube => generateCubePositionsJs rnd count 200) :=
  ⟨rfl, rfl, rfl, rfl, rfl⟩

